import Mathlib

/-!
# VirtualMem: the page-replacement core of `main.c`

A shallow embedding of the fault handler of `main.c` (the frame table,
`find_free_frame`, `remove_page`, the three policies `rand_replace`, `fifo`
and `lru` with its linked recency stack, and `page_fault_handler`), followed
by theorems about it.

Conventions of the embedding.

* The C globals are the fields of one record `VM`, passed explicitly.
* `nframes` is the allocated length of `frameTable`: `main` allocates the
  table, the FIFO array and the physical memory with `nframes` entries and
  never changes any of them.
* Page numbers and frame numbers are natural numbers. The values that can be
  `-1` in C (`find_free_frame`, `find_in_stack`, the local `index`) are
  integers.
* The counters `pageFaults`, `diskReads` and `diskWrites` are C `int`s: they
  hold integers, and `++` on them is `int32 (x + 1)`, which wraps from
  `2^31 - 1` to `-2^31` as the compiled program does.
* A call that ends in `exit(1)`, in an access outside an array, in a `NULL`
  dereference, in a division by zero, or that never returns, yields an error
  instead of a state.
* The simulated disk is observed through the list of the calls made to it.
* `malloc` returns zeroed, fresh cells and never fails.
-/

namespace VirtualMem

/-- Protection bit `PROT_NONE` of `sys/mman.h`. -/
def PROT_NONE : Nat := 0
/-- Protection bit `PROT_READ` of `sys/mman.h`. -/
def PROT_READ : Nat := 1
/-- Protection bit `PROT_WRITE` of `sys/mman.h`. -/
def PROT_WRITE : Nat := 2

/-- The value a C `int` holds after a result `x` is stored in it: `x` taken
modulo `2^32` into the range from `-2^31` to `2^31 - 1`. -/
def int32 (x : Int) : Int := (x + 2147483648) % 4294967296 - 2147483648

/-- The ways a call can fail to return. -/
inductive Err where
  /-- An error message followed by `exit(1)`. -/
  | fatal : Err
  /-- A `NULL` dereference, an access outside an array or a freed cell,
  or a division by zero. -/
  | undefined : Err
  /-- A loop that never ends. -/
  | diverges : Err
deriving DecidableEq, Repr

deriving instance DecidableEq for Except

/-- One entry of `frameTable` (`main.c`, lines 37-41). -/
structure frameEntry where
  page : Nat
  bits : Nat
deriving DecidableEq, Repr

/-- One entry of the page table: what `page_table_get_entry` returns. -/
structure PTE where
  frame : Nat
  bits : Nat
deriving DecidableEq, Repr

/-- A node of the recency stack (`struct node`, lines 56-60). Pointers are
addresses in the heap, `none` is `NULL`. -/
structure node where
  page : Nat
  next : Option Nat
  previous : Option Nat
deriving DecidableEq, Repr

/-- A call to the simulated disk: the block, and the frame whose memory is
the buffer. -/
inductive DiskOp where
  | read (block : Nat) (frame : Nat) : DiskOp
  | write (block : Nat) (frame : Nat) : DiskOp
deriving DecidableEq, Repr

/-- The recency stack of LRU: the nodes allocated so far (a freed cell is
`none`) and the globals `top` and `bottom` (lines 69-70). -/
structure Stack where
  heap : List (Option node)
  top : Option Nat
  bottom : Option Nat
deriving DecidableEq, Repr

/-- The global state of the program. -/
structure VM where
  /-- global `npages` -/
  npages : Nat
  /-- global `frameTable`; its length is the global `nframes` -/
  frameTable : List frameEntry
  /-- the mapping kept by the page table `pt` -/
  pt : Nat → PTE
  /-- global `pageFaults`, a C `int` -/
  pageFaults : Int
  /-- global `diskReads`, a C `int` -/
  diskReads : Int
  /-- global `diskWrites`, a C `int` -/
  diskWrites : Int
  front : Nat
  /-- global `end` -/
  end_ : Nat
  fifoArray : List Nat
  /-- globals `top`, `bottom` and the nodes they reach -/
  stack : Stack
  /-- the calls made to `disk_read` and `disk_write`, oldest first -/
  disk : List DiskOp
  /-- ghost counter: the number of calls of `remove_page` so far -/
  removeCalls : Nat

/-- The global `nframes`. -/
def VM.nframes (s : VM) : Nat := s.frameTable.length

/-- Modelled from the spec: the page-table adapter (`page_table.h` is not part
of the sources). `set_entry(page, frame, protection)` records the mapping of
one page and leaves the others alone. -/
def page_table_set_entry (pt : Nat → PTE) (page frame bits : Nat) : Nat → PTE :=
  fun q => if q = page then ⟨frame, bits⟩ else pt q

/-- Modelled from the spec: the page-table adapter,
`get_entry(page) -> (frame, protection)`. -/
def page_table_get_entry (pt : Nat → PTE) (page : Nat) : PTE := pt page

/-- The state at the first fault: counters zero, `front = end = 0`, an empty
stack, every page unmapped by the page table, and the two arrays allocated
by `main` (lines 431-435) with every frame free. -/
def init (nframes npages : Nat) : VM where
  npages := npages
  frameTable := List.replicate nframes ⟨0, 0⟩
  pt := fun _ => ⟨0, 0⟩
  pageFaults := 0
  diskReads := 0
  diskWrites := 0
  front := 0
  end_ := 0
  fifoArray := List.replicate nframes 0
  stack := ⟨[], none, none⟩
  disk := []
  removeCalls := 0

/-- The loop of `find_free_frame` from index `i` on (lines 76-80). -/
def scanFree : List frameEntry → Nat → Int
  | [], _ => -1
  | e :: rest, i => if e.bits = 0 then (i : Int) else scanFree rest (i + 1)

/-- `find_free_frame` (lines 74-83). -/
def find_free_frame (s : VM) : Int := scanFree s.frameTable 0

/-- `disk_read(disk, block, &physmem[index*PAGE_SIZE])`. -/
def disk_read (s : VM) (block : Nat) (index : Int) : Except Err VM :=
  if 0 ≤ index ∧ index < (s.nframes : Int) then
    .ok { s with disk := s.disk ++ [DiskOp.read block index.toNat] }
  else .error Err.undefined

/-- `remove_page` (lines 85-94). The call of `disk_write` on line 88 is the
entry `DiskOp.write` added to `disk`. -/
def remove_page (s : VM) (fnumber : Nat) : Except Err VM :=
  match s.frameTable[fnumber]? with
  | none => .error Err.undefined
  | some e =>
    let s1 : VM :=
      if e.bits &&& PROT_WRITE ≠ 0 then
        { s with disk := s.disk ++ [DiskOp.write e.page fnumber],
                 diskWrites := int32 (s.diskWrites + 1) }
      else s
    .ok { s1 with pt := page_table_set_entry s1.pt e.page fnumber 0,
                  frameTable := s1.frameTable.set fnumber { e with bits := 0 },
                  removeCalls := s1.removeCalls + 1 }

/-- The common end of the three policies (lines 239-241, 295-297, 363-367):
`page_table_set_entry(pt, page, index, bits)` and the update of
`frameTable[index]`. -/
def update_tables (s : VM) (page : Nat) (index : Int) (bits : Nat) : Except Err VM :=
  if 0 ≤ index ∧ index < (s.nframes : Int) then
    .ok { s with pt := page_table_set_entry s.pt page index.toNat bits,
                 frameTable := s.frameTable.set index.toNat ⟨page, bits⟩ }
  else .error Err.undefined

/-- `rand_replace` (lines 197-243); `r` is the value `lrand48()` returns when
it is called, `0 ≤ r < 2^31`. -/
def rand_replace (s : VM) (page : Nat) (r : Nat) : Except Err VM :=
  let e := page_table_get_entry s.pt page
  if e.bits = 0 then
    let bits := PROT_READ
    let index := find_free_frame s
    let evicted : Except Err (VM × Int) :=
      if index < 0 then
        if s.nframes = 0 then .error Err.undefined
        else
          match remove_page s (r % s.nframes) with
          | .error err => .error err
          | .ok s1 => .ok (s1, ((r % s.nframes : Nat) : Int))
      else .ok (s, index)
    match evicted with
    | .error err => .error err
    | .ok (s1, index) =>
      match disk_read s1 index.toNat index with
      | .error err => .error err
      | .ok s2 => update_tables { s2 with diskReads := int32 (s2.diskReads + 1) } page index bits
  else if e.bits &&& PROT_READ ≠ 0 then
    update_tables s page (e.frame : Int) (PROT_WRITE ||| PROT_READ)
  else .error Err.fatal

/-- `fifo` (lines 245-298). -/
def fifo (s : VM) (page : Nat) : Except Err VM :=
  let e := page_table_get_entry s.pt page
  if e.bits = 0 then
    let bit := PROT_READ
    let index := find_free_frame s
    let evicted : Except Err (VM × Int) :=
      if index < 0 then
        if s.front = s.end_ then
          match s.fifoArray[s.front]? with
          | none => .error Err.undefined
          | some v =>
            match remove_page s v with
            | .error err => .error err
            | .ok s1 => .ok (s1, (v : Int))
        else .error Err.fatal
      else .ok (s, index)
    match evicted with
    | .error err => .error err
    | .ok (s1, index) =>
      match disk_read s1 page index with
      | .error err => .error err
      | .ok s2 =>
        let s3 : VM := { s2 with diskReads := int32 (s2.diskReads + 1) }
        if s3.end_ < s3.fifoArray.length then
          let s4 : VM := { s3 with fifoArray := s3.fifoArray.set s3.end_ index.toNat }
          if s4.nframes = 0 then .error Err.undefined
          else
            let s5 : VM := { s4 with end_ := s4.end_ % s4.nframes }
            update_tables s5 page index bit
        else .error Err.undefined
  else if e.bits &&& PROT_READ ≠ 0 then
    update_tables s page (e.frame : Int) (PROT_READ ||| PROT_WRITE)
  else .error Err.fatal

/-- The node a pointer points to: `undefined` for `NULL`, for an address
never allocated and for a freed cell. -/
def deref (heap : List (Option node)) (p : Option Nat) : Except Err node :=
  match p with
  | none => .error Err.undefined
  | some a =>
    match heap[a]? with
    | some (some n) => .ok n
    | _ => .error Err.undefined

/-- An assignment `p->field = ...`: the node at `p` is replaced by `f` of it. -/
def store (st : Stack) (p : Option Nat) (f : node → node) : Except Err Stack :=
  match deref st.heap p, p with
  | .ok n, some a => .ok { st with heap := st.heap.set a (some (f n)) }
  | _, _ => .error Err.undefined

/-- `free(p)`. -/
def free (st : Stack) (p : Option Nat) : Except Err Stack :=
  match deref st.heap p, p with
  | .ok _, some a => .ok { st with heap := st.heap.set a none }
  | _, _ => .error Err.undefined

/-- `GetNewNode` (lines 97-103): the new node is a fresh cell of the heap. -/
def GetNewNode (st : Stack) (page : Nat) : Stack × Option Nat :=
  ({ st with heap := st.heap ++ [some ⟨page, none, none⟩] }, some st.heap.length)

/-- `push` (lines 106-116). -/
def push (st : Stack) (page : Nat) : Except Err Stack :=
  let (st1, newNode) := GetNewNode st page
  if st1.top = none ∧ st1.bottom = none then
    .ok { st1 with top := newNode, bottom := newNode }
  else
    match store st1 st1.top (fun t => { t with next := newNode }) with
    | .error err => .error err
    | .ok st2 =>
      match store st2 newNode (fun t => { t with previous := st2.top }) with
      | .error err => .error err
      | .ok st3 => .ok { st3 with top := newNode }

/-- The loop of `find_in_stack` (lines 122-128), at most `fuel` nodes. -/
def find_in_stack_loop (heap : List (Option node)) (page : Nat) :
    Nat → Option Nat → Int → Except Err Int
  | _, none, _ => .ok (-1)
  | 0, some _, _ => .error Err.diverges
  | fuel + 1, some a, index =>
    match deref heap (some a) with
    | .error err => .error err
    | .ok n =>
      if n.page = page then .ok index
      else find_in_stack_loop heap page fuel n.previous (index + 1)

/-- `find_in_stack` (lines 119-131). A walk that passes more nodes than the
heap has cells is in a cycle of `previous` links and never ends. -/
def find_in_stack (st : Stack) (page : Nat) : Except Err Int :=
  find_in_stack_loop st.heap page (st.heap.length + 1) st.top 0

/-- The loop of `lru` on lines 327-329: `n` times `temp = temp->previous`. -/
def walk_previous (heap : List (Option node)) : Nat → Option Nat → Except Err (Option Nat)
  | 0, temp => .ok temp
  | n + 1, temp =>
    match deref heap temp with
    | .error err => .error err
    | .ok t => walk_previous heap n t.previous

/-- `move_to_top` (lines 134-162). -/
def move_to_top (st : Stack) (toTop : Option Nat) : Except Err Stack :=
  if st.top = toTop then .ok st
  else
    match deref st.heap toTop with
    | .error err => .error err
    | .ok n =>
      if n.previous = none then
        -- lines 141-145
        let st1 : Stack := { st with bottom := n.next }
        match store st1 st1.top (fun t => { t with next := toTop }) with
        | .error err => .error err
        | .ok st2 =>
          match deref st2.heap toTop with
          | .error err => .error err
          | .ok n2 =>
            let st3 : Stack := { st2 with top := n2.previous }
            match store st3 toTop (fun t => { t with next := none }) with
            | .error err => .error err
            | .ok st4 => .ok { st4 with top := toTop }
      else
        -- lines 149-159
        let temp := n.previous
        match store st temp (fun t => { t with next := n.next }) with
        | .error err => .error err
        | .ok st1 =>
          match deref st1.heap temp with
          | .error err => .error err
          | .ok t1 =>
            match store st1 t1.next (fun t => { t with previous := temp }) with
            | .error err => .error err
            | .ok st2 =>
              match store st2 toTop (fun t => { t with next := none }) with
              | .error err => .error err
              | .ok st3 =>
                match store st3 toTop (fun t => { t with previous := st3.top }) with
                | .error err => .error err
                | .ok st4 =>
                  match store st4 st4.top (fun t => { t with next := toTop }) with
                  | .error err => .error err
                  | .ok st5 => .ok { st5 with top := toTop }

/-- `drop` (lines 177-194): the new state and the frame released. -/
def drop (s : VM) : Except Err (VM × Nat) :=
  match deref s.stack.heap s.stack.bottom with
  | .error err => .error err
  | .ok b =>
    let frame := (page_table_get_entry s.pt b.page).frame
    match remove_page s frame with
    | .error err => .error err
    | .ok s1 =>
      let temp := s1.stack.bottom
      match deref s1.stack.heap temp with
      | .error err => .error err
      | .ok t =>
        match store s1.stack t.next (fun x => { x with previous := none }) with
        | .error err => .error err
        | .ok st2 =>
          match deref st2.heap st2.bottom with
          | .error err => .error err
          | .ok b2 =>
            let st3 : Stack := { st2 with bottom := b2.next }
            match free st3 temp with
            | .error err => .error err
            | .ok st4 => .ok ({ s1 with stack := st4 }, frame)

/-- `lru` (lines 301-372). -/
def lru (s : VM) (page : Nat) : Except Err VM :=
  let e := page_table_get_entry s.pt page
  if e.bits = 0 then
    let index := find_free_frame s
    let bits := PROT_READ
    -- lines 317-338: the state, `index` and `exists`
    let evicted : Except Err (VM × Int × Int) :=
      if index < 0 then
        match find_in_stack s.stack page with
        | .error err => .error err
        | .ok ex =>
          if ex ≥ 0 then
            match walk_previous s.stack.heap ex.toNat s.stack.top with
            | .error err => .error err
            | .ok temp =>
              match move_to_top s.stack temp with
              | .error err => .error err
              | .ok st1 => .ok ({ s with stack := st1 }, index, ex)
          else
            match drop s with
            | .error err => .error err
            | .ok (s1, frame) => .ok (s1, (frame : Int), ex)
      else .ok (s, index, -1)
    match evicted with
    | .error err => .error err
    | .ok (s1, index, ex) =>
      match disk_read s1 page index with
      | .error err => .error err
      | .ok s2 =>
        let s3 : VM := { s2 with diskReads := int32 (s2.diskReads + 1) }
        let pushed : Except Err VM :=
          if ex < 0 then
            match push s3.stack page with
            | .error err => .error err
            | .ok st => .ok { s3 with stack := st }
          else .ok s3
        match pushed with
        | .error err => .error err
        | .ok s4 => update_tables s4 page index bits
  else if e.bits &&& PROT_READ ≠ 0 then
    update_tables s page (e.frame : Int) (PROT_READ ||| PROT_WRITE)
  else .error Err.fatal

/-- `page_fault_handler` (lines 377-395); `alg` is the global `alg`, `r` the
value `lrand48()` returns if this call draws one. -/
def page_fault_handler (alg : String) (s : VM) (page : Nat) (r : Nat) : Except Err VM :=
  let s1 : VM := { s with pageFaults := int32 (s.pageFaults + 1) }
  if alg = "rand" then rand_replace s1 page r
  else if alg = "fifo" then fifo s1 page
  else lru s1 page

/-- A run: the handler called on each fault `(page, r)` of a list in turn;
it stops at the first call that does not return. -/
def run (alg : String) : VM → List (Nat × Nat) → Except Err VM
  | s, [] => .ok s
  | s, (page, r) :: rest =>
    match page_fault_handler alg s page r with
    | .error err => .error err
    | .ok s1 => run alg s1 rest

/-- The resident pages: the pages below `npages` whose mapping has a
protection other than `PROT_NONE`, in increasing order. -/
def resident (s : VM) : List Nat :=
  (List.range s.npages).filter (fun p => (s.pt p).bits ≠ 0)

/-- The number of frames whose protection is not `PROT_NONE`. -/
def occupiedFrames (s : VM) : Nat :=
  s.frameTable.countP (fun e => e.bits ≠ 0)

/-- What is read from the result of a call or of a run that returned. -/
def observe {σ α : Type} (f : σ → α) : Except Err σ → Except Err α
  | .ok s => .ok (f s)
  | .error err => .error err

/-- The number of pages below `n` that a page table maps. -/
def mappedBelow (pt : Nat → PTE) (n : Nat) : Nat :=
  ((List.range n).filter (fun p => (pt p).bits ≠ 0)).length

/-- The frame table and the page table describe the same residency. -/
structure Consistent (s : VM) : Prop where
  frame_lt : ∀ p, (s.pt p).frame < s.frameTable.length
  page_lt : ∀ p, (s.pt p).bits ≠ 0 → p < s.npages
  pt_ft : ∀ p, (s.pt p).bits ≠ 0 → s.frameTable[(s.pt p).frame]? = some ⟨p, (s.pt p).bits⟩
  ft_pt : ∀ (f : Nat) (e : frameEntry), s.frameTable[f]? = some e → e.bits ≠ 0 →
    s.pt e.page = ⟨f, e.bits⟩
  count : occupiedFrames s = mappedBelow s.pt s.npages

/-- How a policy call that returns changes the tables, the counters and the
disk log: a write upgrade, a load into a free frame, or a load after the
eviction of the occupant of frame `v`. -/
inductive TableStep (s s1 : VM) (page : Nat) : Prop where
  | upgrade (f b : Nat) (hpt : s.pt page = ⟨f, b⟩) (hb : b ≠ 0) (hrd : b &&& PROT_READ ≠ 0)
      (hf : f < s.frameTable.length)
      (pt_eq : s1.pt = page_table_set_entry s.pt page f (PROT_READ ||| PROT_WRITE))
      (ft_eq : s1.frameTable = s.frameTable.set f ⟨page, PROT_READ ||| PROT_WRITE⟩)
      (reads_eq : s1.diskReads = s.diskReads) (writes_eq : s1.diskWrites = s.diskWrites)
      (disk_eq : s1.disk = s.disk) (calls_eq : s1.removeCalls = s.removeCalls) :
      TableStep s s1 page
  | load (i blk : Nat) (e : frameEntry) (hpt : (s.pt page).bits = 0)
      (hfree : find_free_frame s = (i : Int))
      (hi : s.frameTable[i]? = some e) (he : e.bits = 0)
      (pt_eq : s1.pt = page_table_set_entry s.pt page i PROT_READ)
      (ft_eq : s1.frameTable = s.frameTable.set i ⟨page, PROT_READ⟩)
      (reads_eq : s1.diskReads = int32 (s.diskReads + 1)) (writes_eq : s1.diskWrites = s.diskWrites)
      (disk_eq : s1.disk = s.disk ++ [DiskOp.read blk i])
      (calls_eq : s1.removeCalls = s.removeCalls) :
      TableStep s s1 page
  | evict (v blk : Nat) (e : frameEntry) (hpt : (s.pt page).bits = 0)
      (hfull : find_free_frame s < 0)
      (hv : s.frameTable[v]? = some e)
      (pt_eq : s1.pt =
        page_table_set_entry (page_table_set_entry s.pt e.page v 0) page v PROT_READ)
      (ft_eq : s1.frameTable = s.frameTable.set v ⟨page, PROT_READ⟩)
      (reads_eq : s1.diskReads = int32 (s.diskReads + 1))
      (writes_eq : s1.diskWrites =
        if e.bits &&& PROT_WRITE ≠ 0 then int32 (s.diskWrites + 1) else s.diskWrites)
      (disk_eq : s1.disk = s.disk ++
        (if e.bits &&& PROT_WRITE ≠ 0 then [DiskOp.write e.page v] else []) ++
        [DiskOp.read blk v])
      (calls_eq : s1.removeCalls = s.removeCalls + 1) :
      TableStep s s1 page

/-- The loop of `print_stack` (lines 168-171), at most `fuel` nodes: the
pages it prints, from `top` down the `previous` links. -/
def print_stack_loop (heap : List (Option node)) : Nat → Option Nat → Except Err (List Nat)
  | _, none => .ok []
  | 0, some _ => .error Err.diverges
  | fuel + 1, some a =>
    match deref heap (some a) with
    | .error err => .error err
    | .ok n =>
      match print_stack_loop heap fuel n.previous with
      | .error err => .error err
      | .ok rest => .ok (n.page :: rest)

/-- `print_stack` (lines 165-173): the pages in the stack, most recent first.
As in `find_in_stack`, a walk longer than the heap never ends. -/
def print_stack (st : Stack) : Except Err (List Nat) :=
  print_stack_loop st.heap (st.heap.length + 1) st.top

/-- A chain of nodes: from the pointer `cur`, down the `previous` links, the
nodes at the addresses `cells.map Prod.fst` hold the pages
`cells.map Prod.snd`, each `next` points back to the node before (`nx` for
the first), and the last `previous` is `NULL`. -/
def Chain (heap : List (Option node)) : Option Nat → Option Nat → List (Nat × Nat) → Prop
  | _, cur, [] => cur = none
  | nx, cur, (a, p) :: rest =>
    cur = some a ∧ ∃ prev, heap[a]? = some (some ⟨p, nx, prev⟩) ∧ Chain heap (some a) prev rest

/-- The stack is a well-formed doubly-linked list of the cells `cells`
(address and page, most recent first): `top` starts the chain, `bottom` is
its last node, and no address occurs twice. -/
structure Rep (st : Stack) (cells : List (Nat × Nat)) : Prop where
  chain : Chain st.heap none st.top cells
  bottom_eq : st.bottom = (cells.getLast?).map Prod.fst
  nodup : (cells.map Prod.fst).Nodup

/-- What holds of the FIFO queue in every state `fifo` reaches: both cursors
are 0, slot 0 of the array holds a frame index, the other slots hold what
`init` put there, and either nothing has happened yet or the last call to the
disk is the read into the frame that slot 0 names. -/
structure FifoInv (s : VM) : Prop where
  front_eq : s.front = 0
  end_eq : s.end_ = 0
  length_eq : s.fifoArray.length = s.frameTable.length
  slot0 : ∃ v, s.fifoArray[0]? = some v ∧ v < s.frameTable.length
  rest : ∀ k, 1 ≤ k → s.fifoArray[k]? = (List.replicate s.frameTable.length 0)[k]?
  last : (s.disk = [] ∧ (∀ p, (s.pt p).bits = 0) ∧ ∀ e ∈ s.frameTable, e.bits = 0) ∨
    ∃ l blk v, s.disk = l ++ [DiskOp.read blk v] ∧ s.fifoArray[0]? = some v

/-- What holds of the recency stack in every state `lru` reaches: it is a
well-formed list of cells whose pages are, without repetition, the mapped
pages. -/
structure LruInv (s : VM) (cells : List (Nat × Nat)) : Prop where
  rep : Rep s.stack cells
  pages_nodup : (cells.map Prod.snd).Nodup
  mem_iff : ∀ p, p ∈ cells.map Prod.snd ↔ (s.pt p).bits ≠ 0

/-! ## The frame table -/

theorem scanFree_neg (l : List frameEntry) (k : Nat) (h : scanFree l k < 0) :
    ∀ e ∈ l, e.bits ≠ 0 := by
  induction l generalizing k with
  | nil => simp
  | cons a rest ih =>
    unfold scanFree at h
    split at h
    · omega
    · intro e he
      rcases List.mem_cons.mp he with rfl | he
      · assumption
      · exact ih (k + 1) h e he

theorem scanFree_nonneg (l : List frameEntry) (k : Nat) (h : ¬ scanFree l k < 0) :
    ∃ i : Nat, scanFree l k = ((k + i : Nat) : Int) ∧
      (∃ e, l[i]? = some e ∧ e.bits = 0) ∧ ∀ j, j < i → ∀ e, l[j]? = some e → e.bits ≠ 0 := by
  induction l generalizing k with
  | nil => simp [scanFree] at h
  | cons a rest ih =>
    unfold scanFree at h ⊢
    split at h
    · rename_i ha
      refine ⟨0, by simp [ha], ⟨a, by simp, ha⟩, by simp⟩
    · rename_i ha
      obtain ⟨i, h1, h2, h3⟩ := ih (k + 1) h
      refine ⟨i + 1, ?_, by simpa using h2, ?_⟩
      · rw [if_neg ha, h1]; congr 1; omega
      · intro j hj e he
        cases j with
        | zero => simp at he; subst he; exact ha
        | succ j => exact h3 j (by omega) e (by simpa using he)

/-- What `find_free_frame` returns when it does not return `-1`. -/
theorem find_free_frame_nonneg (s : VM) (h : ¬ find_free_frame s < 0) :
    ∃ i : Nat, find_free_frame s = (i : Int) ∧ i < s.frameTable.length ∧
      (∃ e, s.frameTable[i]? = some e ∧ e.bits = 0) := by
  obtain ⟨i, h1, ⟨e, h2, h3⟩, -⟩ := scanFree_nonneg s.frameTable 0 h
  refine ⟨i, by simpa [find_free_frame] using h1, ?_, e, h2, h3⟩
  exact (List.getElem?_eq_some.mp h2).1

/-- When `find_free_frame` returns `-1` every frame is occupied. -/
theorem find_free_frame_neg (s : VM) (h : find_free_frame s < 0) :
    ∀ (f : Nat) (e : frameEntry), s.frameTable[f]? = some e → e.bits ≠ 0 := by
  intro f e he
  exact scanFree_neg s.frameTable 0 h e (List.getElem?_mem he)

theorem update_tables_ok {s s1 : VM} {page : Nat} {i : Nat} {bits : Nat}
    (h : update_tables s page (i : Int) bits = .ok s1) :
    i < s.frameTable.length ∧
      s1 = { s with pt := page_table_set_entry s.pt page i bits,
                    frameTable := s.frameTable.set i ⟨page, bits⟩ } := by
  unfold update_tables at h
  split at h
  · rename_i hc
    simp only [Except.ok.injEq, Int.toNat_ofNat] at h
    refine ⟨by simpa [VM.nframes] using hc.2, h.symm⟩
  · simp at h

theorem remove_page_ok {s s1 : VM} {f : Nat} (h : remove_page s f = .ok s1) :
    ∃ e, s.frameTable[f]? = some e ∧
      s1 = { s with
        pt := page_table_set_entry s.pt e.page f 0,
        frameTable := s.frameTable.set f { e with bits := 0 },
        removeCalls := s.removeCalls + 1,
        disk := s.disk ++ (if e.bits &&& PROT_WRITE ≠ 0 then [DiskOp.write e.page f] else []),
        diskWrites :=
          if e.bits &&& PROT_WRITE ≠ 0 then int32 (s.diskWrites + 1) else s.diskWrites } := by
  unfold remove_page at h
  split at h
  · simp at h
  · rename_i e he
    refine ⟨e, he, ?_⟩
    simp only [Except.ok.injEq] at h
    subst h
    split <;> simp

theorem disk_read_ok {s s1 : VM} {blk : Nat} {i : Nat}
    (h : disk_read s blk (i : Int) = .ok s1) :
    s1 = { s with disk := s.disk ++ [DiskOp.read blk i] } := by
  unfold disk_read at h
  split at h
  · simpa using h.symm
  · simp at h

theorem rand_replace_step {s s1 : VM} {page r : Nat} (h : rand_replace s page r = .ok s1) :
    TableStep s s1 page ∧ s1.npages = s.npages ∧ s1.pageFaults = s.pageFaults := by
  unfold rand_replace page_table_get_entry at h
  simp only at h
  split at h
  · rename_i hb
    split at h
    · cases h
    · rename_i ev s2 index hev
      split at h
      · cases h
      · rename_i s3 hrd
        by_cases hfree : find_free_frame s < 0
        · simp only [hfree, if_true] at hev
          split at hev
          · cases hev
          · split at hev
            · cases hev
            · rename_i s4 hrm
              simp only [Except.ok.injEq, Prod.mk.injEq] at hev
              obtain ⟨rfl, rfl⟩ := hev
              obtain ⟨e, he, rfl⟩ := remove_page_ok hrm
              simp only [Int.toNat_ofNat] at hrd
              have h3 := disk_read_ok hrd
              subst h3
              obtain ⟨-, rfl⟩ := update_tables_ok h
              refine ⟨TableStep.evict (r % s.nframes) (r % s.nframes) e hb hfree he ?_ ?_
                rfl rfl rfl rfl, rfl, rfl⟩
              · rfl
              · simp [List.set_set]
        · simp only [hfree, if_false, Except.ok.injEq, Prod.mk.injEq] at hev
          obtain ⟨rfl, rfl⟩ := hev
          obtain ⟨i, hi, -, e, he, hz⟩ := find_free_frame_nonneg s hfree
          rw [hi] at h hrd
          simp only [Int.toNat_ofNat] at hrd
          have h3 := disk_read_ok hrd
          subst h3
          obtain ⟨-, rfl⟩ := update_tables_ok h
          exact ⟨TableStep.load i i e hb hi he hz rfl rfl rfl rfl rfl rfl, rfl, rfl⟩
  · rename_i hb
    split at h
    · rename_i hr
      obtain ⟨hf, rfl⟩ := update_tables_ok h
      exact ⟨TableStep.upgrade (s.pt page).frame (s.pt page).bits rfl hb hr hf rfl rfl
        rfl rfl rfl rfl, rfl, rfl⟩
    · cases h

theorem disk_read_nonneg {s s1 : VM} {blk : Nat} {index : Int}
    (h : disk_read s blk index = .ok s1) : 0 ≤ index := by
  unfold disk_read at h
  split at h
  · rename_i hc; exact hc.1
  · cases h

theorem fifo_step {s s1 : VM} {page : Nat} (h : fifo s page = .ok s1) :
    TableStep s s1 page ∧ s1.npages = s.npages ∧ s1.pageFaults = s.pageFaults := by
  unfold fifo page_table_get_entry at h
  simp only at h
  split at h
  · rename_i hb
    split at h
    · cases h
    · rename_i ev s2 index hev
      split at h
      · cases h
      · rename_i s3 hrd
        split at h
        · split at h
          · cases h
          · by_cases hfree : find_free_frame s < 0
            · simp only [hfree, if_true] at hev
              split at hev
              · split at hev
                · cases hev
                · rename_i v hv
                  split at hev
                  · cases hev
                  · rename_i s4 hrm
                    simp only [Except.ok.injEq, Prod.mk.injEq] at hev
                    obtain ⟨rfl, rfl⟩ := hev
                    obtain ⟨e, he, rfl⟩ := remove_page_ok hrm
                    have h3 := disk_read_ok hrd
                    subst h3
                    obtain ⟨-, rfl⟩ := update_tables_ok h
                    refine ⟨TableStep.evict v page e hb hfree he ?_ ?_ rfl rfl rfl rfl, rfl, rfl⟩
                    · rfl
                    · simp [List.set_set]
              · cases hev
            · simp only [hfree, if_false, Except.ok.injEq, Prod.mk.injEq] at hev
              obtain ⟨rfl, rfl⟩ := hev
              obtain ⟨i, hi, -, e, he, hz⟩ := find_free_frame_nonneg s hfree
              rw [hi] at h hrd
              have h3 := disk_read_ok hrd
              subst h3
              obtain ⟨-, rfl⟩ := update_tables_ok h
              exact ⟨TableStep.load i page e hb hi he hz rfl rfl rfl rfl rfl rfl, rfl, rfl⟩
        · cases h
  · rename_i hb
    split at h
    · rename_i hr
      obtain ⟨hf, rfl⟩ := update_tables_ok h
      exact ⟨TableStep.upgrade (s.pt page).frame (s.pt page).bits rfl hb hr hf rfl rfl
        rfl rfl rfl rfl, rfl, rfl⟩
    · cases h

theorem drop_ok {s s1 : VM} {frame : Nat} (h : drop s = .ok (s1, frame)) :
    ∃ s0, remove_page s frame = .ok s0 ∧ s1 = { s0 with stack := s1.stack } := by
  unfold drop at h
  split at h
  · cases h
  · dsimp only at h
    split at h
    · cases h
    · rename_i s0 hrm
      split at h
      · cases h
      · split at h
        · cases h
        · split at h
          · cases h
          · split at h
            · cases h
            · simp only [Except.ok.injEq, Prod.mk.injEq] at h
              obtain ⟨rfl, rfl⟩ := h
              exact ⟨s0, hrm, rfl⟩

theorem lru_step {s s1 : VM} {page : Nat} (h : lru s page = .ok s1) :
    TableStep s s1 page ∧ s1.npages = s.npages ∧ s1.pageFaults = s.pageFaults := by
  unfold lru page_table_get_entry at h
  simp only at h
  split at h
  · rename_i hb
    split at h
    · cases h
    · rename_i ev s2 index ex hev
      split at h
      · cases h
      · rename_i s3 hrd
        split at h
        · cases h
        · rename_i pushed s4 hpush
          have hs4 : s4 = { s3 with diskReads := int32 (s3.diskReads + 1), stack := s4.stack } := by
            split at hpush
            · split at hpush
              · cases hpush
              · simp only [Except.ok.injEq] at hpush
                subst hpush
                rfl
            · simp only [Except.ok.injEq] at hpush
              subst hpush
              rfl
          by_cases hfree : find_free_frame s < 0
          · simp only [hfree, if_true] at hev
            split at hev
            · cases hev
            · split at hev
              · split at hev
                · cases hev
                · split at hev
                  · cases hev
                  · simp only [Except.ok.injEq, Prod.mk.injEq] at hev
                    obtain ⟨-, rfl, -⟩ := hev
                    have := disk_read_nonneg hrd
                    omega
              · split at hev
                · cases hev
                · rename_i s5 frame hdrop
                  simp only [Except.ok.injEq, Prod.mk.injEq] at hev
                  obtain ⟨rfl, rfl, rfl⟩ := hev
                  obtain ⟨s0, hrm, hs5⟩ := drop_ok hdrop
                  obtain ⟨e, he, rfl⟩ := remove_page_ok hrm
                  have h3 := disk_read_ok hrd
                  rw [hs5] at h3
                  rw [h3] at hs4
                  rw [hs4] at h
                  obtain ⟨-, rfl⟩ := update_tables_ok h
                  refine ⟨TableStep.evict frame page e hb hfree he ?_ ?_ rfl rfl rfl rfl, rfl, rfl⟩
                  · rfl
                  · simp [List.set_set]
          · simp only [hfree, if_false, Except.ok.injEq, Prod.mk.injEq] at hev
            obtain ⟨rfl, rfl, rfl⟩ := hev
            obtain ⟨i, hi, -, e, he, hz⟩ := find_free_frame_nonneg s hfree
            rw [hi] at h hrd
            have h3 := disk_read_ok hrd
            rw [h3] at hs4
            rw [hs4] at h
            obtain ⟨-, rfl⟩ := update_tables_ok h
            exact ⟨TableStep.load i page e hb hi he hz rfl rfl rfl rfl rfl rfl, rfl, rfl⟩
  · rename_i hb
    split at h
    · rename_i hr
      obtain ⟨hf, rfl⟩ := update_tables_ok h
      exact ⟨TableStep.upgrade (s.pt page).frame (s.pt page).bits rfl hb hr hf rfl rfl
        rfl rfl rfl rfl, rfl, rfl⟩
    · cases h

/-- Every call of the handler that returns is one table step, with one more
fault counted. -/
theorem page_fault_handler_step {alg : String} {s s1 : VM} {page r : Nat}
    (h : page_fault_handler alg s page r = .ok s1) :
    TableStep s s1 page ∧ s1.npages = s.npages ∧ s1.pageFaults = int32 (s.pageFaults + 1) := by
  unfold page_fault_handler at h
  dsimp only at h
  have key : ∀ s0 : VM, s0 = { s with pageFaults := int32 (s.pageFaults + 1) } →
      TableStep s0 s1 page ∧ s1.npages = s0.npages ∧ s1.pageFaults = s0.pageFaults →
      TableStep s s1 page ∧ s1.npages = s.npages ∧ s1.pageFaults = int32 (s.pageFaults + 1) := by
    rintro s0 rfl ⟨hstep, hn, hp⟩
    refine ⟨?_, hn, hp⟩
    cases hstep with
    | upgrade f b hpt hb hrd hf pt_eq ft_eq reads_eq writes_eq disk_eq calls_eq =>
      exact TableStep.upgrade f b hpt hb hrd hf pt_eq ft_eq reads_eq writes_eq disk_eq calls_eq
    | load i blk e hpt hfree hi he pt_eq ft_eq reads_eq writes_eq disk_eq calls_eq =>
      exact TableStep.load i blk e hpt hfree hi he pt_eq ft_eq reads_eq writes_eq disk_eq calls_eq
    | evict v blk e hpt hfull hv pt_eq ft_eq reads_eq writes_eq disk_eq calls_eq =>
      exact TableStep.evict v blk e hpt hfull hv pt_eq ft_eq reads_eq writes_eq disk_eq calls_eq
  split at h
  · exact key _ rfl (rand_replace_step h)
  · split at h
    · exact key _ rfl (fifo_step h)
    · exact key _ rfl (lru_step h)

/-! ## Consistency of the frame table and the page table -/

theorem mappedBelow_succ (pt : Nat → PTE) (n : Nat) :
    mappedBelow pt (n + 1) = mappedBelow pt n + (if (pt n).bits ≠ 0 then 1 else 0) := by
  unfold mappedBelow
  rw [List.range_succ, List.filter_append, List.length_append]
  by_cases h : (pt n).bits = 0 <;> simp [h]

theorem mappedBelow_set_ge (pt : Nat → PTE) (page frame bits n : Nat) (h : n ≤ page) :
    mappedBelow (page_table_set_entry pt page frame bits) n = mappedBelow pt n := by
  induction n with
  | zero => rfl
  | succ n ih =>
    rw [mappedBelow_succ, mappedBelow_succ, ih (by omega)]
    have : n ≠ page := by omega
    simp [page_table_set_entry, this]

theorem mappedBelow_set (pt : Nat → PTE) (page frame bits n : Nat) (h : page < n) :
    mappedBelow (page_table_set_entry pt page frame bits) n
        + (if (pt page).bits ≠ 0 then 1 else 0)
      = mappedBelow pt n + (if bits ≠ 0 then 1 else 0) := by
  induction n with
  | zero => omega
  | succ n ih =>
    rw [mappedBelow_succ, mappedBelow_succ]
    by_cases hp : page = n
    · subst hp
      rw [mappedBelow_set_ge pt page frame bits page (le_refl _)]
      simp only [page_table_set_entry, if_true]
      omega
    · have := ih (by omega)
      have hn : n ≠ page := fun h => hp h.symm
      simp only [page_table_set_entry, hn, if_false] at this ⊢
      omega

theorem mappedBelow_lt (pt : Nat → PTE) (n p : Nat) (hp : p < n) (h : (pt p).bits = 0) :
    mappedBelow pt n < n := by
  induction n with
  | zero => omega
  | succ n ih =>
    rw [mappedBelow_succ]
    have hle : mappedBelow pt n ≤ n := by
      unfold mappedBelow
      exact (List.length_filter_le _ _).trans (by simp)
    by_cases hpn : p = n
    · subst hpn
      simp [h]
      omega
    · have := ih (by omega)
      split <;> omega

theorem resident_length (s : VM) : (resident s).length = mappedBelow s.pt s.npages := rfl

theorem init_consistent (nframes npages : Nat) (h : 1 ≤ nframes) :
    Consistent (init nframes npages) where
  frame_lt := by intro p; simp [init]; omega
  page_lt := by intro p hp; simp [init] at hp
  pt_ft := by intro p hp; simp [init] at hp
  ft_pt := by
    intro f e he hb
    have := List.getElem?_mem he
    simp [init] at this
    rw [this.2] at hb
    simp at hb
  count := by
    have h1 : occupiedFrames (init nframes npages) = 0 := by
      simp [occupiedFrames, init, List.countP_eq_zero]
    have h2 : mappedBelow (init nframes npages).pt (init nframes npages).npages = 0 := by
      simp [mappedBelow, init]
    rw [h1, h2]

theorem countP_set_add (p : frameEntry → Bool) :
    ∀ (l : List frameEntry) (i : Nat) (a e : frameEntry), l[i]? = some e →
      (l.set i a).countP p + (if p e then 1 else 0)
        = l.countP p + (if p a then 1 else 0)
  | [], _, _, _, h => by simp at h
  | x :: rest, 0, a, e, h => by
    have hx : x = e := by simpa using h
    rw [hx, List.set_cons_zero, List.countP_cons, List.countP_cons]
    omega
  | x :: rest, i + 1, a, e, h => by
    have hrec := countP_set_add p rest i a e (by simpa using h)
    rw [List.set_cons_succ, List.countP_cons, List.countP_cons]
    omega

/-- Emptying an occupied frame, as `remove_page` does, keeps the tables
consistent. -/
theorem Consistent.remove {s s1 : VM} (hc : Consistent s) {v : Nat} {e : frameEntry}
    (hv : s.frameTable[v]? = some e) (hb : e.bits ≠ 0)
    (hn : s1.npages = s.npages)
    (hpt : s1.pt = page_table_set_entry s.pt e.page v 0)
    (hft : s1.frameTable = s.frameTable.set v { e with bits := 0 }) :
    Consistent s1 := by
  have hvlt : v < s.frameTable.length := (List.getElem?_eq_some.mp hv).1
  have hpe : s.pt e.page = ⟨v, e.bits⟩ := hc.ft_pt v e hv hb
  refine ⟨?_, ?_, ?_, ?_, ?_⟩
  · intro p
    rw [hpt, hft, List.length_set]
    by_cases hp : p = e.page
    · simp [page_table_set_entry, hp, hvlt]
    · simpa [page_table_set_entry, hp] using hc.frame_lt p
  · intro p
    rw [hpt, hn]
    by_cases hp : p = e.page
    · simp [page_table_set_entry, hp]
    · simpa [page_table_set_entry, hp] using hc.page_lt p
  · intro p
    rw [hpt, hft]
    by_cases hp : p = e.page
    · simp [page_table_set_entry, hp]
    · simp only [page_table_set_entry, hp, if_false]
      intro hbp
      have h1 := hc.pt_ft p hbp
      have hne : v ≠ (s.pt p).frame := by
        intro heq
        rw [← heq, hv] at h1
        simp only [Option.some.injEq] at h1
        exact hp (by rw [h1])
      rw [List.getElem?_set_ne hne]
      exact h1
  · intro g e1 hg hb1
    rw [hft] at hg
    rw [hpt]
    by_cases hgv : v = g
    · subst hgv
      rw [List.getElem?_set, if_pos rfl, if_pos hvlt] at hg
      simp only [Option.some.injEq] at hg
      subst hg
      exact absurd rfl hb1
    · rw [List.getElem?_set_ne hgv] at hg
      have h1 := hc.ft_pt g e1 hg hb1
      have hne : e1.page ≠ e.page := by
        intro heq
        rw [heq, hpe] at h1
        simp only [PTE.mk.injEq] at h1
        exact hgv h1.1
      simpa [page_table_set_entry, hne] using h1
  · have h1 := countP_set_add (fun x => decide (x.bits ≠ 0)) s.frameTable v
      { e with bits := 0 } e hv
    have h2 := mappedBelow_set s.pt e.page v 0 s.npages
      (hc.page_lt e.page (by rw [hpe]; exact hb))
    have h3 := hc.count
    unfold occupiedFrames at h3 ⊢
    rw [hft, hpt, hn]
    rw [hpe] at h2
    simp [hb] at h1 h2
    simp only [ne_eq, decide_not] at h3 ⊢
    omega

/-- Putting an unmapped page into a free frame keeps the tables consistent. -/
theorem Consistent.install {s s1 : VM} (hc : Consistent s) (i page b : Nat) (e : frameEntry)
    (hi : s.frameTable[i]? = some e) (he : e.bits = 0) (hpage : (s.pt page).bits = 0)
    (hlt : page < s.npages) (hb : b ≠ 0)
    (hn : s1.npages = s.npages)
    (hpt : s1.pt = page_table_set_entry s.pt page i b)
    (hft : s1.frameTable = s.frameTable.set i ⟨page, b⟩) :
    Consistent s1 := by
  have hilt : i < s.frameTable.length := (List.getElem?_eq_some.mp hi).1
  refine ⟨?_, ?_, ?_, ?_, ?_⟩
  · intro p
    rw [hpt, hft, List.length_set]
    by_cases hp : p = page
    · simp [page_table_set_entry, hp, hilt]
    · simpa [page_table_set_entry, hp] using hc.frame_lt p
  · intro p
    rw [hpt, hn]
    by_cases hp : p = page
    · intro _; rw [hp]; exact hlt
    · simpa [page_table_set_entry, hp] using hc.page_lt p
  · intro p
    rw [hpt, hft]
    by_cases hp : p = page
    · subst hp
      simp [page_table_set_entry, List.getElem?_set, hilt]
    · simp only [page_table_set_entry, hp, if_false]
      intro hbp
      have h1 := hc.pt_ft p hbp
      have hne : i ≠ (s.pt p).frame := by
        intro heq
        rw [← heq, hi] at h1
        simp only [Option.some.injEq] at h1
        rw [h1] at he
        exact hbp he
      rw [List.getElem?_set_ne hne]
      exact h1
  · intro g e1 hg hb1
    rw [hft] at hg
    rw [hpt]
    by_cases hgv : i = g
    · subst hgv
      rw [List.getElem?_set, if_pos rfl, if_pos hilt] at hg
      simp only [Option.some.injEq] at hg
      subst hg
      simp [page_table_set_entry]
    · rw [List.getElem?_set_ne hgv] at hg
      have h1 := hc.ft_pt g e1 hg hb1
      have hne : e1.page ≠ page := by
        intro heq
        rw [heq] at h1
        rw [h1] at hpage
        exact hb1 hpage
      simpa [page_table_set_entry, hne] using h1
  · have h1 := countP_set_add (fun x => decide (x.bits ≠ 0)) s.frameTable i ⟨page, b⟩ e hi
    have h2 := mappedBelow_set s.pt page i b s.npages hlt
    have h3 := hc.count
    unfold occupiedFrames at h3 ⊢
    rw [hft, hpt, hn]
    simp [hb, he, hpage] at h1 h2
    simp only [ne_eq, decide_not] at h3 ⊢
    omega

theorem page_table_set_entry_twice (pt : Nat → PTE) (page f a b : Nat) :
    page_table_set_entry (page_table_set_entry pt page f a) page f b
      = page_table_set_entry pt page f b := by
  funext q
  by_cases hq : q = page <;> simp [page_table_set_entry, hq]

/-- A table step keeps the tables consistent. -/
theorem TableStep.consistent {s s1 : VM} {page : Nat} (hs : TableStep s s1 page)
    (hn : s1.npages = s.npages) (hlt : page < s.npages) (hc : Consistent s) :
    Consistent s1 := by
  cases hs with
  | upgrade f b hpt hb hrd hf pt_eq ft_eq reads_eq writes_eq disk_eq calls_eq =>
    have hfe : s.frameTable[f]? = some ⟨page, b⟩ := by
      have := hc.pt_ft page (by rw [hpt]; exact hb)
      rwa [hpt] at this
    have hmid : Consistent { s with pt := page_table_set_entry s.pt page f 0,
                                    frameTable := s.frameTable.set f ⟨page, 0⟩ } :=
      hc.remove hfe hb rfl rfl rfl
    refine hmid.install f page (PROT_READ ||| PROT_WRITE) ⟨page, 0⟩
      ?_ rfl ?_ hlt (by decide) hn ?_ ?_
    · simp [List.getElem?_set, hf]
    · simp [page_table_set_entry]
    · rw [pt_eq]; exact (page_table_set_entry_twice _ _ _ _ _).symm
    · rw [ft_eq]; simp [List.set_set]
  | load i blk e hpt hfree hi he pt_eq ft_eq reads_eq writes_eq disk_eq calls_eq =>
    exact hc.install i page PROT_READ e hi he hpt hlt (by decide) hn pt_eq ft_eq
  | evict v blk e hpt hfull hv pt_eq ft_eq reads_eq writes_eq disk_eq calls_eq =>
    have hb : e.bits ≠ 0 := find_free_frame_neg s hfull v e hv
    have hvlt : v < s.frameTable.length := (List.getElem?_eq_some.mp hv).1
    have hpe : s.pt e.page = ⟨v, e.bits⟩ := hc.ft_pt v e hv hb
    have hne : page ≠ e.page := by
      intro heq
      rw [← heq] at hpe
      rw [hpe] at hpt
      exact hb hpt
    have hmid : Consistent { s with pt := page_table_set_entry s.pt e.page v 0,
                                    frameTable := s.frameTable.set v { e with bits := 0 } } :=
      hc.remove hv hb rfl rfl rfl
    refine hmid.install v page PROT_READ { e with bits := 0 }
      ?_ rfl ?_ hlt (by decide) hn pt_eq ?_
    · simp [List.getElem?_set, hvlt]
    · simpa [page_table_set_entry, hne] using hpt
    · rw [ft_eq]; simp [List.set_set]

/-- Every state a run reaches from a consistent state is consistent. -/
theorem run_consistent (alg : String) (faults : List (Nat × Nat)) :
    ∀ s s1 : VM, Consistent s → (∀ x ∈ faults, x.1 < s.npages) →
      run alg s faults = .ok s1 → Consistent s1 ∧ s1.npages = s.npages := by
  induction faults with
  | nil =>
    intro s s1 hc _ h
    simp only [run, Except.ok.injEq] at h
    subst h
    exact ⟨hc, rfl⟩
  | cons x rest ih =>
    intro s s1 hc hlt h
    obtain ⟨page, r⟩ := x
    simp only [run] at h
    split at h
    · cases h
    · rename_i s2 hstep
      obtain ⟨hts, hn, -⟩ := page_fault_handler_step hstep
      have hc2 := hts.consistent hn (hlt (page, r) (List.mem_cons_self _ _)) hc
      obtain ⟨h1, h2⟩ := ih s2 s1 hc2
        (fun y hy => by rw [hn]; exact hlt y (List.mem_cons_of_mem _ hy)) h
      exact ⟨h1, h2.trans hn⟩

theorem init_frameTable_length (nframes npages : Nat) :
    (init nframes npages).frameTable.length = nframes := by
  simp [init]

theorem TableStep.length_eq {s s1 : VM} {page : Nat} (hs : TableStep s s1 page) :
    s1.frameTable.length = s.frameTable.length := by
  cases hs with
  | upgrade f b hpt hb hrd hf pt_eq ft_eq reads_eq writes_eq disk_eq calls_eq =>
    rw [ft_eq, List.length_set]
  | load i blk e hpt hfree hi he pt_eq ft_eq reads_eq writes_eq disk_eq calls_eq =>
    rw [ft_eq, List.length_set]
  | evict v blk e hpt hfull hv pt_eq ft_eq reads_eq writes_eq disk_eq calls_eq =>
    rw [ft_eq, List.length_set]

/-- A value in the range of a C `int` is stored as it is. -/
theorem int32_of_range (x : Int) (h1 : -2147483648 ≤ x) (h2 : x < 2147483648) :
    int32 x = x := by
  unfold int32
  omega

/-- What a C `int` holds is in the range from `-2^31` to `2^31 - 1`. -/
theorem int32_range (x : Int) : -2147483648 ≤ int32 x ∧ int32 x < 2147483648 := by
  unfold int32
  omega

/-- A table step leaves each disk counter alone or applies one `++` to it. -/
theorem TableStep.counters {s s1 : VM} {page : Nat} (hs : TableStep s s1 page) :
    (s1.diskReads = s.diskReads ∨ s1.diskReads = int32 (s.diskReads + 1)) ∧
      (s1.diskWrites = s.diskWrites ∨ s1.diskWrites = int32 (s.diskWrites + 1)) := by
  cases hs with
  | upgrade f b hpt hb hrd hf pt_eq ft_eq reads_eq writes_eq disk_eq calls_eq =>
    exact ⟨Or.inl reads_eq, Or.inl writes_eq⟩
  | load i blk e hpt hfree hi he pt_eq ft_eq reads_eq writes_eq disk_eq calls_eq =>
    exact ⟨Or.inr reads_eq, Or.inl writes_eq⟩
  | evict v blk e hpt hfull hv pt_eq ft_eq reads_eq writes_eq disk_eq calls_eq =>
    refine ⟨Or.inr reads_eq, ?_⟩
    rw [writes_eq]
    split
    · exact Or.inr rfl
    · exact Or.inl rfl

theorem run_length_eq (alg : String) (faults : List (Nat × Nat)) :
    ∀ s s1 : VM, run alg s faults = .ok s1 →
      s1.frameTable.length = s.frameTable.length := by
  induction faults with
  | nil =>
    intro s s1 h
    simp only [run, Except.ok.injEq] at h
    subst h
    rfl
  | cons x rest ih =>
    intro s s1 h
    obtain ⟨page, r⟩ := x
    simp only [run] at h
    split at h
    · cases h
    · rename_i s2 hstep
      rw [ih s2 s1 h, (page_fault_handler_step hstep).1.length_eq]

/-- In a run that keeps the number of faults below `2^31`, `pageFaults`
counts the calls and the two disk counters stay between 0 and it. -/
theorem run_counters (alg : String) (faults : List (Nat × Nat)) :
    ∀ s s1 : VM, run alg s faults = .ok s1 →
      0 ≤ s.pageFaults → s.pageFaults + faults.length < 2147483648 →
      0 ≤ s.diskReads → s.diskReads ≤ s.pageFaults →
      0 ≤ s.diskWrites → s.diskWrites ≤ s.pageFaults →
      s1.pageFaults = s.pageFaults + faults.length ∧
      0 ≤ s1.diskReads ∧ s1.diskReads ≤ s1.pageFaults ∧
      0 ≤ s1.diskWrites ∧ s1.diskWrites ≤ s1.pageFaults := by
  induction faults with
  | nil =>
    intro s s1 h h0 _ hr0 hr hw0 hw
    simp only [run, Except.ok.injEq] at h
    subst h
    simp only [List.length_nil, Nat.cast_zero, add_zero, true_and]
    exact ⟨hr0, hr, hw0, hw⟩
  | cons x rest ih =>
    intro s s1 h h0 hlen hr0 hr hw0 hw
    obtain ⟨page, r⟩ := x
    simp only [run] at h
    split at h
    · cases h
    · rename_i s2 hstep
      obtain ⟨hts, -, hpf⟩ := page_fault_handler_step hstep
      simp only [List.length_cons, Nat.cast_add, Nat.cast_one] at hlen ⊢
      have hpf2 : s2.pageFaults = s.pageFaults + 1 := by
        rw [hpf]
        exact int32_of_range _ (by omega) (by omega)
      have hc := hts.counters
      have hr2 : 0 ≤ s2.diskReads ∧ s2.diskReads ≤ s2.pageFaults := by
        rcases hc.1 with e | e
        · omega
        · rw [e, int32_of_range _ (by omega) (by omega)]
          omega
      have hw2 : 0 ≤ s2.diskWrites ∧ s2.diskWrites ≤ s2.pageFaults := by
        rcases hc.2 with e | e
        · omega
        · rw [e, int32_of_range _ (by omega) (by omega)]
          omega
      obtain ⟨a, b⟩ := ih s2 s1 h (by omega) (by omega) hr2.1 hr2.2 hw2.1 hw2.2
      exact ⟨by omega, b⟩

theorem remove_page_eq {s : VM} {f : Nat} {e : frameEntry} (hf : s.frameTable[f]? = some e) :
    remove_page s f = .ok { s with
        pt := page_table_set_entry s.pt e.page f 0,
        frameTable := s.frameTable.set f { e with bits := 0 },
        removeCalls := s.removeCalls + 1,
        disk := s.disk ++ (if e.bits &&& PROT_WRITE ≠ 0 then [DiskOp.write e.page f] else []),
        diskWrites :=
          if e.bits &&& PROT_WRITE ≠ 0 then int32 (s.diskWrites + 1) else s.diskWrites } := by
  unfold remove_page
  rw [hf]
  simp only [Except.ok.injEq]
  split <;> simp

/-- With at least as many frames as pages, an unmapped page finds a free
frame. -/
theorem free_frame_of_unmapped {s : VM} (hc : Consistent s)
    (hle : s.npages ≤ s.frameTable.length) {p : Nat} (hp : p < s.npages)
    (hb : (s.pt p).bits = 0) : ¬ find_free_frame s < 0 := by
  intro hfull
  have h1 : occupiedFrames s = s.frameTable.length := by
    unfold occupiedFrames
    rw [List.countP_eq_length]
    intro e he
    obtain ⟨n, hn⟩ := List.mem_iff_getElem?.mp he
    simpa using find_free_frame_neg s hfull n e hn
  have h2 := mappedBelow_lt s.pt s.npages p hp hb
  have h3 := hc.count
  omega

theorem scanFree_ge (l : List frameEntry) : ∀ k : Nat, -1 ≤ scanFree l k := by
  induction l with
  | nil => intro k; simp [scanFree]
  | cons a rest ih =>
    intro k
    unfold scanFree
    split
    · omega
    · exact ih (k + 1)

/-- `find_free_frame` returns `-1` or a frame index. -/
theorem find_free_frame_ge (s : VM) : -1 ≤ find_free_frame s :=
  scanFree_ge s.frameTable 0

theorem run_no_eviction (alg : String) (faults : List (Nat × Nat)) :
    ∀ s s1 : VM, Consistent s → s.npages ≤ s.frameTable.length →
      (∀ x ∈ faults, x.1 < s.npages) → run alg s faults = .ok s1 →
      s1.removeCalls = s.removeCalls ∧ s1.diskWrites = s.diskWrites := by
  induction faults with
  | nil =>
    intro s s1 _ _ _ h
    simp only [run, Except.ok.injEq] at h
    subst h
    exact ⟨rfl, rfl⟩
  | cons x rest ih =>
    intro s s1 hc hle hlt h
    obtain ⟨page, r⟩ := x
    simp only [run] at h
    split at h
    · cases h
    · rename_i s2 hstep
      obtain ⟨hts, hn, -⟩ := page_fault_handler_step hstep
      have hpage : page < s.npages := hlt (page, r) (List.mem_cons_self _ _)
      have hc2 := hts.consistent hn hpage hc
      have hlen := hts.length_eq
      obtain ⟨h1, h2⟩ := ih s2 s1 hc2 (by rw [hn, hlen]; exact hle)
        (fun y hy => by rw [hn]; exact hlt y (List.mem_cons_of_mem _ hy)) h
      cases hts with
      | upgrade f b hpt hb hrd hf pt_eq ft_eq reads_eq writes_eq disk_eq calls_eq =>
        exact ⟨h1.trans calls_eq, h2.trans writes_eq⟩
      | load i blk e hpt hfree hi he pt_eq ft_eq reads_eq writes_eq disk_eq calls_eq =>
        exact ⟨h1.trans calls_eq, h2.trans writes_eq⟩
      | evict v blk e hpt hfull hv pt_eq ft_eq reads_eq writes_eq disk_eq calls_eq =>
        exact absurd hfull (free_frame_of_unmapped hc hle hpage hpt)

theorem update_tables_eq (s : VM) (page f bits : Nat) (hf : f < s.frameTable.length) :
    update_tables s page (f : Int) bits
      = .ok { s with pt := page_table_set_entry s.pt page f bits,
                     frameTable := s.frameTable.set f ⟨page, bits⟩ } := by
  unfold update_tables
  have : (0 : Int) ≤ (f : Int) ∧ (f : Int) < (s.nframes : Int) := by
    constructor
    · omega
    · unfold VM.nframes; omega
  rw [if_pos this]
  simp

/-- A fault on a page mapped read-only: what the handler returns, whatever
the policy. -/
theorem page_fault_handler_upgrade (alg : String) (s : VM) (page r f : Nat)
    (hpt : s.pt page = ⟨f, PROT_READ⟩) (hf : f < s.frameTable.length) :
    page_fault_handler alg s page r
      = .ok { s with pageFaults := int32 (s.pageFaults + 1),
                     pt := page_table_set_entry s.pt page f (PROT_READ ||| PROT_WRITE),
                     frameTable := s.frameTable.set f ⟨page, PROT_READ ||| PROT_WRITE⟩ } := by
  have hb : ¬ (PROT_READ = 0) := by decide
  have hr : PROT_READ &&& PROT_READ ≠ 0 := by decide
  unfold page_fault_handler
  dsimp only
  split
  · unfold rand_replace page_table_get_entry
    simp only [hpt, hb, hr, if_false, if_true, ne_eq, not_false_eq_true]
    exact update_tables_eq _ page f _ hf
  · split
    · unfold fifo page_table_get_entry
      simp only [hpt, hb, hr, if_false, if_true, ne_eq, not_false_eq_true]
      exact update_tables_eq _ page f _ hf
    · unfold lru page_table_get_entry
      simp only [hpt, hb, hr, if_false, if_true, ne_eq, not_false_eq_true]
      exact update_tables_eq _ page f _ hf

/-- A fault on a page whose protection has the bit `PROT_READ`: what the
handler returns, whatever the policy. -/
theorem page_fault_handler_mapped (alg : String) (s : VM) (page r : Nat)
    (hr : (s.pt page).bits &&& PROT_READ ≠ 0)
    (hf : (s.pt page).frame < s.frameTable.length) :
    page_fault_handler alg s page r
      = .ok { s with
          pageFaults := int32 (s.pageFaults + 1),
          pt := page_table_set_entry s.pt page (s.pt page).frame (PROT_READ ||| PROT_WRITE),
          frameTable := s.frameTable.set (s.pt page).frame
            ⟨page, PROT_READ ||| PROT_WRITE⟩ } := by
  have hb : ¬ ((s.pt page).bits = 0) := by
    intro h0
    rw [h0] at hr
    exact hr (by decide)
  unfold page_fault_handler
  dsimp only
  split
  · unfold rand_replace page_table_get_entry
    dsimp only
    rw [if_neg hb, if_pos hr]
    exact update_tables_eq _ page _ _ hf
  · split
    · unfold fifo page_table_get_entry
      dsimp only
      rw [if_neg hb, if_pos hr]
      exact update_tables_eq _ page _ _ hf
    · unfold lru page_table_get_entry
      dsimp only
      rw [if_neg hb, if_pos hr]
      exact update_tables_eq _ page _ _ hf

theorem int32_add_succ (x : Int) (n : Nat) :
    int32 (int32 (x + 1) + (n : Int)) = int32 (x + ((n + 1 : Nat) : Int)) := by
  unfold int32
  push_cast
  omega

/-- Faults repeated on a page whose protection has the bit `PROT_READ` all
return; they only apply `++` to `pageFaults`, once each. -/
theorem run_refault (alg : String) (page r : Nat) :
    ∀ (n : Nat) (s : VM), (s.pt page).bits &&& PROT_READ ≠ 0 →
      (s.pt page).frame < s.frameTable.length → int32 s.pageFaults = s.pageFaults →
      ∃ s1, run alg s (List.replicate n (page, r)) = .ok s1 ∧
        s1.pageFaults = int32 (s.pageFaults + (n : Int)) ∧
        s1.diskReads = s.diskReads ∧ s1.diskWrites = s.diskWrites := by
  intro n
  induction n with
  | zero =>
    intro s _ _ hpf
    exact ⟨s, rfl, by simpa using hpf.symm, rfl, rfl⟩
  | succ n ih =>
    intro s hr hf _
    have hstep := page_fault_handler_mapped alg s page r hr hf
    obtain ⟨s1, h1, h2, h3, h4⟩ := ih
      { s with
        pageFaults := int32 (s.pageFaults + 1),
        pt := page_table_set_entry s.pt page (s.pt page).frame (PROT_READ ||| PROT_WRITE),
        frameTable := s.frameTable.set (s.pt page).frame ⟨page, PROT_READ ||| PROT_WRITE⟩ }
      (by simp only [page_table_set_entry, if_true]; decide)
      (by simpa [page_table_set_entry] using hf)
      (by
        have := int32_range (s.pageFaults + 1)
        exact int32_of_range _ this.1 this.2)
    refine ⟨s1, ?_, ?_, h3, h4⟩
    · rw [List.replicate_succ]
      simp only [run, hstep]
      exact h1
    · rw [h2]
      exact int32_add_succ s.pageFaults n

theorem disk_read_eq (s : VM) (blk i : Nat) (hi : i < s.frameTable.length) :
    disk_read s blk (i : Int) = .ok { s with disk := s.disk ++ [DiskOp.read blk i] } := by
  unfold disk_read
  have : (0 : Int) ≤ (i : Int) ∧ (i : Int) < (s.nframes : Int) := by
    constructor
    · omega
    · unfold VM.nframes; omega
  rw [if_pos this]
  simp

theorem observe_ok {σ α : Type} (f : σ → α) (x : σ) : observe f (.ok x) = .ok (f x) := rfl

theorem observe_error {σ α : Type} (f : σ → α) (err : Err) :
    observe f (.error err) = .error err := rfl

theorem remove_page_frame (s : VM) (f : Nat) (a b : Nat) (c : List Nat) (d : Stack) :
    remove_page { s with front := a, end_ := b, fifoArray := c, stack := d } f
      = observe (fun t : VM => { t with front := a, end_ := b, fifoArray := c, stack := d })
          (remove_page s f) := by
  unfold remove_page
  dsimp only
  cases s.frameTable[f]? with
  | none => rfl
  | some e =>
    dsimp only [observe]
    by_cases hw : e.bits &&& PROT_WRITE ≠ 0
    · rw [if_pos hw, if_pos hw]
    · rw [if_neg hw, if_neg hw]

theorem disk_read_frame (s : VM) (blk : Nat) (i : Int) (a b : Nat) (c : List Nat)
    (d : Stack) :
    disk_read { s with front := a, end_ := b, fifoArray := c, stack := d } blk i
      = observe (fun t : VM => { t with front := a, end_ := b, fifoArray := c, stack := d })
          (disk_read s blk i) := by
  unfold disk_read VM.nframes
  dsimp only
  split <;> rfl

theorem update_tables_frame (s : VM) (page : Nat) (i : Int) (bits : Nat) (a b : Nat)
    (c : List Nat) (d : Stack) :
    update_tables { s with front := a, end_ := b, fifoArray := c, stack := d } page i bits
      = observe (fun t : VM => { t with front := a, end_ := b, fifoArray := c, stack := d })
          (update_tables s page i bits) := by
  unfold update_tables VM.nframes
  dsimp only
  split <;> rfl

/-- The random policy neither reads nor writes the FIFO cursors, the FIFO
array or the LRU stack. -/
theorem rand_replace_frame (s : VM) (page r : Nat) (a b : Nat) (c : List Nat) (d : Stack) :
    rand_replace { s with front := a, end_ := b, fifoArray := c, stack := d } page r
      = observe (fun t : VM => { t with front := a, end_ := b, fifoArray := c, stack := d })
          (rand_replace s page r) := by
  unfold rand_replace page_table_get_entry
  dsimp only
  have hff : find_free_frame { s with front := a, end_ := b, fifoArray := c, stack := d }
      = find_free_frame s := rfl
  have hnf : VM.nframes { s with front := a, end_ := b, fifoArray := c, stack := d }
      = s.nframes := rfl
  rw [hff, hnf]
  by_cases hb : (s.pt page).bits = 0
  · rw [if_pos hb, if_pos hb]
    by_cases hfree : find_free_frame s < 0
    · rw [if_pos hfree, if_pos hfree]
      by_cases h0 : s.nframes = 0
      · rw [if_pos h0, if_pos h0]
        rfl
      · rw [if_neg h0, if_neg h0, remove_page_frame]
        cases remove_page s (r % s.nframes) with
        | error err => rfl
        | ok s1 =>
          simp only [observe_ok]
          rw [disk_read_frame]
          cases disk_read s1 (Int.toNat (r % s.nframes : Nat)) ((r % s.nframes : Nat) : Int) with
          | error err => rfl
          | ok s2 =>
            simp only [observe_ok]
            exact update_tables_frame { s2 with diskReads := int32 (s2.diskReads + 1) } page _ _ a b c d
    · rw [if_neg hfree, if_neg hfree]
      dsimp only
      rw [disk_read_frame]
      cases disk_read s (find_free_frame s).toNat (find_free_frame s) with
      | error err => rfl
      | ok s2 =>
        simp only [observe_ok]
        exact update_tables_frame { s2 with diskReads := int32 (s2.diskReads + 1) } page _ _ a b c d
  · rw [if_neg hb, if_neg hb]
    by_cases hr : (s.pt page).bits &&& PROT_READ ≠ 0
    · rw [if_pos hr, if_pos hr]
      exact update_tables_frame _ page _ _ a b c d
    · rw [if_neg hr, if_neg hr]
      rfl

/-! ## The FIFO queue -/

/-- What a call of `fifo` that returns does to the cursors, the array and the
disk log. -/
theorem fifo_queue {s s1 : VM} {page : Nat} (h : fifo s page = .ok s1) :
    s1.front = s.front ∧
      (((s.pt page).bits ≠ 0 ∧ s1.end_ = s.end_ ∧ s1.fifoArray = s.fifoArray ∧
          s1.disk = s.disk) ∨
        ((s.pt page).bits = 0 ∧ ∃ v blk l, v < s.frameTable.length ∧
          s.end_ < s.fifoArray.length ∧ s1.end_ = s.end_ % s.nframes ∧
          s1.fifoArray = s.fifoArray.set s.end_ v ∧ s1.disk = l ++ [DiskOp.read blk v])) := by
  unfold fifo page_table_get_entry at h
  simp only at h
  split at h
  · rename_i hb
    split at h
    · cases h
    · rename_i ev s2 index hev
      split at h
      · cases h
      · rename_i s3 hrd
        split at h
        · rename_i hend
          split at h
          · cases h
          · by_cases hfree : find_free_frame s < 0
            · simp only [hfree, if_true] at hev
              split at hev
              · split at hev
                · cases hev
                · rename_i v hv
                  split at hev
                  · cases hev
                  · rename_i s4 hrm
                    simp only [Except.ok.injEq, Prod.mk.injEq] at hev
                    obtain ⟨rfl, rfl⟩ := hev
                    obtain ⟨e, he, rfl⟩ := remove_page_ok hrm
                    have h3 := disk_read_ok hrd
                    subst h3
                    obtain ⟨hvlt, rfl⟩ := update_tables_ok h
                    refine ⟨rfl, Or.inr ⟨hb, v, page, _, ?_, hend, ?_, ?_, rfl⟩⟩
                    · simpa using hvlt
                    · simp [VM.nframes]
                    · simp
              · cases hev
            · simp only [hfree, if_false, Except.ok.injEq, Prod.mk.injEq] at hev
              obtain ⟨rfl, rfl⟩ := hev
              obtain ⟨i, hi, hilt, -⟩ := find_free_frame_nonneg s hfree
              rw [hi] at h hrd
              have h3 := disk_read_ok hrd
              subst h3
              obtain ⟨-, rfl⟩ := update_tables_ok h
              refine ⟨rfl, Or.inr ⟨hb, i, page, _, hilt, hend, ?_, ?_, rfl⟩⟩
              · simp [VM.nframes]
              · simp [hi]
        · cases h
  · rename_i hb
    split at h
    · obtain ⟨-, rfl⟩ := update_tables_ok h
      exact ⟨rfl, Or.inl ⟨hb, rfl, rfl, rfl⟩⟩
    · cases h

theorem init_fifoInv (nframes npages : Nat) (h : 1 ≤ nframes) :
    FifoInv (init nframes npages) where
  front_eq := rfl
  end_eq := rfl
  length_eq := by simp [init]
  slot0 := by
    refine ⟨0, ?_, by simp [init]; omega⟩
    simp only [init]
    rw [List.getElem?_replicate]
    simp
    omega
  rest := by intro k _; simp [init]
  last := by
    refine Or.inl ⟨rfl, fun _ => rfl, ?_⟩
    intro e he
    simp [init] at he
    rw [he.2]

theorem FifoInv.fifo_bump {s : VM} (h : FifoInv s) (n : Int) :
    FifoInv { s with pageFaults := n } :=
  ⟨h.front_eq, h.end_eq, h.length_eq, h.slot0, h.rest, h.last⟩

/-- A call of `fifo` that returns keeps the queue as `FifoInv` says. -/
theorem FifoInv.fifo_preserved {s s1 : VM} {page : Nat} (hi : FifoInv s) (h : fifo s page = .ok s1) :
    FifoInv s1 := by
  have hlen : s1.frameTable.length = s.frameTable.length := (fifo_step h).1.length_eq
  obtain ⟨hfront, hcase⟩ := fifo_queue h
  rcases hcase with ⟨hb, hend, harr, hdisk⟩ | ⟨hb, v, blk, l, hv, hlt, hend, harr, hdisk⟩
  · refine ⟨hfront.trans hi.front_eq, hend.trans hi.end_eq, ?_, ?_, ?_, ?_⟩
    · rw [harr, hlen]; exact hi.length_eq
    · rw [harr, hlen]; exact hi.slot0
    · rw [harr, hlen]; exact hi.rest
    · rcases hi.last with ⟨-, hpages, -⟩ | ⟨l, blk, v, h1, h2⟩
      · exact absurd (hpages page) hb
      · exact Or.inr ⟨l, blk, v, by rw [hdisk]; exact h1, by rw [harr]; exact h2⟩
  · have he0 : s.end_ = 0 := hi.end_eq
    rw [he0] at harr hlt hend
    refine ⟨hfront.trans hi.front_eq, by rw [hend]; simp, ?_, ?_, ?_, ?_⟩
    · rw [harr, hlen, List.length_set]; exact hi.length_eq
    · refine ⟨v, ?_, by rw [hlen]; exact hv⟩
      rw [harr, List.getElem?_set, if_pos rfl, if_pos hlt]
    · intro k hk
      rw [harr, hlen, List.getElem?_set_ne (by omega)]
      exact hi.rest k hk
    · refine Or.inr ⟨l, blk, v, hdisk, ?_⟩
      rw [harr, List.getElem?_set, if_pos rfl, if_pos hlt]

theorem page_fault_handler_fifo (s : VM) (page r : Nat) :
    page_fault_handler "fifo" s page r = fifo { s with pageFaults := int32 (s.pageFaults + 1) } page := by
  simp [page_fault_handler]

theorem run_fifoInv (faults : List (Nat × Nat)) :
    ∀ s s1 : VM, FifoInv s → run "fifo" s faults = .ok s1 → FifoInv s1 := by
  induction faults with
  | nil =>
    intro s s1 hi h
    simp only [run, Except.ok.injEq] at h
    subst h
    exact hi
  | cons x rest ih =>
    intro s s1 hi h
    obtain ⟨page, r⟩ := x
    simp only [run] at h
    split at h
    · cases h
    · rename_i s2 hstep
      rw [page_fault_handler_fifo] at hstep
      exact ih s2 s1 ((hi.fifo_bump _).fifo_preserved hstep) h

/-- Under `FifoInv`, `fifo` serves every fault on an unmapped page; when no
frame is free the page goes into the frame that slot 0 of the array names,
after one call of `remove_page`. -/
theorem fifo_unmapped_returns {s : VM} (hi : FifoInv s) (page : Nat)
    (hb : (s.pt page).bits = 0) :
    ∃ s1, fifo s page = .ok s1 ∧
      (find_free_frame s < 0 → ∀ v, s.fifoArray[s.front]? = some v →
        s1.pt page = ⟨v, PROT_READ⟩ ∧ s1.removeCalls = s.removeCalls + 1) := by
  obtain ⟨v, hv, hvlt⟩ := hi.slot0
  have hend : s.end_ < s.fifoArray.length := by
    rw [hi.end_eq, hi.length_eq]; omega
  have hnf : ¬ s.frameTable.length = 0 := by omega
  unfold fifo page_table_get_entry
  dsimp only
  rw [if_pos hb]
  by_cases hfree : find_free_frame s < 0
  · obtain ⟨e, he⟩ : ∃ e, s.frameTable[v]? = some e := ⟨_, List.getElem?_eq_getElem hvlt⟩
    have hfe : s.front = s.end_ := by rw [hi.front_eq, hi.end_eq]
    have hv1 : s.fifoArray[s.front]? = some v := by rw [hi.front_eq]; exact hv
    rw [if_pos hfree, if_pos hfe, hv1]
    dsimp only
    rw [remove_page_eq he]
    dsimp only
    rw [disk_read_eq _ _ _ (by simpa using hvlt)]
    dsimp only
    rw [if_pos hend]
    simp only [VM.nframes, List.length_set, hnf, if_false, Int.toNat_ofNat]
    rw [update_tables_eq _ _ _ _ (by simpa using hvlt)]
    refine ⟨_, rfl, ?_⟩
    intro _ w hw
    simp only [Option.some.injEq] at hw
    subst hw
    simp [page_table_set_entry]
  · obtain ⟨i, hi1, hilt, -⟩ := find_free_frame_nonneg s hfree
    rw [if_neg hfree]
    dsimp only
    rw [hi1, disk_read_eq _ _ _ hilt]
    dsimp only
    rw [if_pos hend]
    simp only [VM.nframes, List.length_set, hnf, if_false, Int.toNat_ofNat]
    rw [update_tables_eq _ _ _ _ (by simpa using hilt)]
    exact ⟨_, rfl, fun h => by omega⟩

/-- The call of `fifo` on an unmapped page when no frame is free and the
cursors are equal: `remove_page` is applied to the frame `v` that
`fifoArray[front]` names, block `page` is read into `v`, `v` is stored at
`fifoArray[end]`, `end` becomes `end % nframes`, and `page` is mapped to `v`. -/
theorem fifo_evict_eq {s : VM} {page v : Nat} {e : frameEntry}
    (hb : (s.pt page).bits = 0) (hfull : find_free_frame s < 0)
    (hfe : s.front = s.end_) (hv : s.fifoArray[s.front]? = some v)
    (he : s.frameTable[v]? = some e) (hend : s.end_ < s.fifoArray.length) :
    ∃ s0, remove_page s v = .ok s0 ∧
      fifo s page = .ok { s0 with
        diskReads := int32 (s0.diskReads + 1),
        disk := s0.disk ++ [DiskOp.read page v],
        fifoArray := s0.fifoArray.set s0.end_ v,
        end_ := s0.end_ % s0.nframes,
        pt := page_table_set_entry s0.pt page v PROT_READ,
        frameTable := s0.frameTable.set v ⟨page, PROT_READ⟩ } := by
  have hvlt : v < s.frameTable.length := by
    rcases Nat.lt_or_ge v s.frameTable.length with h | h
    · exact h
    · rw [List.getElem?_eq_none h] at he
      cases he
  refine ⟨_, remove_page_eq he, ?_⟩
  unfold fifo page_table_get_entry
  dsimp only
  rw [if_pos hb, if_pos hfull, if_pos hfe, hv]
  dsimp only
  rw [remove_page_eq he]
  dsimp only
  rw [Int.toNat_ofNat, disk_read_eq _ _ _ (by simpa using hvlt)]
  dsimp only
  rw [if_pos hend]
  have hnf : ¬ (s.frameTable.set v { e with bits := 0 }).length = 0 := by
    rw [List.length_set]; omega
  unfold VM.nframes
  dsimp only
  rw [if_neg hnf, update_tables_eq _ _ _ _ (by simpa using hvlt)]

/-! ## The recency stack of LRU -/

theorem deref_eq {heap : List (Option node)} {a : Nat} {n : node}
    (h : heap[a]? = some (some n)) : deref heap (some a) = .ok n := by
  simp [deref, h]

theorem store_eq (st : Stack) {a : Nat} {n : node} (f : node → node)
    (h : st.heap[a]? = some (some n)) :
    store st (some a) f = .ok { st with heap := st.heap.set a (some (f n)) } := by
  simp [store, deref, h]

theorem store_null (st : Stack) (f : node → node) : store st none f = .error Err.undefined := by
  simp [store, deref]

theorem free_eq (st : Stack) {a : Nat} {n : node} (h : st.heap[a]? = some (some n)) :
    free st (some a) = .ok { st with heap := st.heap.set a none } := by
  simp [free, deref, h]

/-- A chain only depends on the cells of the heap it passes through. -/
theorem Chain.congr {heap heap1 : List (Option node)} :
    ∀ (cells : List (Nat × Nat)) (nx cur : Option Nat), Chain heap nx cur cells →
      (∀ a ∈ cells.map Prod.fst, heap1[a]? = heap[a]?) → Chain heap1 nx cur cells
  | [], _, _, h, _ => h
  | (a, p) :: rest, nx, cur, h, hag => by
    obtain ⟨hcur, prev, hnode, hrest⟩ := h
    refine ⟨hcur, prev, ?_, Chain.congr rest (some a) prev hrest ?_⟩
    · rw [hag a (by simp)]; exact hnode
    · intro x hx
      exact hag x (by simp only [List.map_cons, List.mem_cons]; exact Or.inr hx)

theorem Chain.addr_lt {heap : List (Option node)} :
    ∀ (cells : List (Nat × Nat)) (nx cur : Option Nat), Chain heap nx cur cells →
      ∀ a ∈ cells.map Prod.fst, a < heap.length
  | [], _, _, _, a, ha => by simp at ha
  | (b, p) :: rest, nx, cur, h, a, ha => by
    obtain ⟨-, prev, hnode, hrest⟩ := h
    simp only [List.map_cons, List.mem_cons] at ha
    rcases ha with rfl | ha
    · exact (List.getElem?_eq_some.mp hnode).1
    · exact Chain.addr_lt rest (some b) prev hrest a ha

/-- Read from the top, a chain prints the pages of its cells. -/
theorem Chain.print {heap : List (Option node)} :
    ∀ (cells : List (Nat × Nat)) (nx cur : Option Nat) (fuel : Nat),
      Chain heap nx cur cells → cells.length ≤ fuel →
      print_stack_loop heap fuel cur = .ok (cells.map Prod.snd)
  | [], _, _, fuel, h, _ => by
    have : _ = none := h
    subst this
    cases fuel <;> rfl
  | (a, p) :: rest, nx, cur, 0, _, hf => by simp at hf
  | (a, p) :: rest, nx, cur, fuel + 1, h, hf => by
    obtain ⟨hcur, prev, hnode, hrest⟩ := h
    subst hcur
    have ih := Chain.print rest (some a) prev fuel hrest (by simpa using hf)
    simp only [print_stack_loop, deref_eq hnode, ih, List.map_cons]

/-- A page that is in no cell of a chain is not found by the search. -/
theorem Chain.find_absent {heap : List (Option node)} (page : Nat) :
    ∀ (cells : List (Nat × Nat)) (nx cur : Option Nat) (fuel : Nat) (index : Int),
      Chain heap nx cur cells → cells.length ≤ fuel → page ∉ cells.map Prod.snd →
      find_in_stack_loop heap page fuel cur index = .ok (-1)
  | [], _, _, fuel, _, h, _, _ => by
    have : _ = none := h
    subst this
    cases fuel <;> rfl
  | (a, p) :: rest, nx, cur, 0, _, _, hf, _ => by simp at hf
  | (a, p) :: rest, nx, cur, fuel + 1, index, h, hf, hp => by
    obtain ⟨hcur, prev, hnode, hrest⟩ := h
    subst hcur
    simp only [List.map_cons, List.mem_cons, not_or] at hp
    have ih := Chain.find_absent page rest (some a) prev fuel (index + 1) hrest
      (by simpa using hf) hp.2
    have hne : ¬ p = page := fun h => hp.1 h.symm
    simp only [find_in_stack_loop, deref_eq hnode, hne, if_false, ih]

theorem length_le_of_nodup_lt (n : Nat) :
    ∀ l : List Nat, l.Nodup → (∀ a ∈ l, a < n) → l.length ≤ n := by
  intro l hnd hlt
  have h1 : l.toFinset ⊆ Finset.range n := by
    intro a ha
    rw [List.mem_toFinset] at ha
    exact Finset.mem_range.mpr (hlt a ha)
  have h2 := Finset.card_le_card h1
  rw [List.toFinset_card_of_nodup hnd, Finset.card_range] at h2
  exact h2

theorem Rep.length_le {st : Stack} {cells : List (Nat × Nat)} (h : Rep st cells) :
    cells.length ≤ st.heap.length := by
  have := length_le_of_nodup_lt st.heap.length (cells.map Prod.fst) h.nodup
    (Chain.addr_lt cells none st.top h.chain)
  simpa using this

/-- On a well-formed stack `print_stack` returns the pages of the cells. -/
theorem Rep.print_stack_eq {st : Stack} {cells : List (Nat × Nat)} (h : Rep st cells) :
    print_stack st = .ok (cells.map Prod.snd) :=
  Chain.print cells none st.top _ h.chain (by have := h.length_le; omega)

/-- On a well-formed stack `find_in_stack` returns `-1` for a page that is in
no cell. -/
theorem Rep.find_in_stack_absent {st : Stack} {cells : List (Nat × Nat)} (h : Rep st cells)
    {page : Nat} (hp : page ∉ cells.map Prod.snd) : find_in_stack st page = .ok (-1) :=
  Chain.find_absent page cells none st.top _ 0 h.chain (by have := h.length_le; omega) hp

/-- On a well-formed stack `push` returns, with the new page in a fresh cell
on top of the others. -/
theorem push_rep {st : Stack} {cells : List (Nat × Nat)} (h : Rep st cells) (page : Nat) :
    ∃ st1, push st page = .ok st1 ∧ Rep st1 ((st.heap.length, page) :: cells) ∧
      st1.heap.length = st.heap.length + 1 := by
  have hlt := Chain.addr_lt cells none st.top h.chain
  have hfresh : st.heap.length ∉ cells.map Prod.fst := fun hm => Nat.lt_irrefl _ (hlt _ hm)
  have hnew : (st.heap ++ [some (node.mk page none none)])[st.heap.length]?
      = some (some (node.mk page none none)) := List.getElem?_concat_length _ _
  cases cells with
  | nil =>
    have htop : st.top = none := h.chain
    have hbot : st.bottom = none := by simpa using h.bottom_eq
    refine ⟨{ heap := st.heap ++ [some (node.mk page none none)], top := some st.heap.length,
              bottom := some st.heap.length }, ?_, ⟨?_, ?_, ?_⟩, ?_⟩
    · simp [push, GetNewNode, htop, hbot]
    · exact ⟨rfl, none, hnew, rfl⟩
    · simp
    · simp
    · simp
  | cons c rest =>
    obtain ⟨t, pt⟩ := c
    obtain ⟨htop, prev, hnode, hrest⟩ := h.chain
    have htlt : t < st.heap.length := (List.getElem?_eq_some.mp hnode).1
    have hnd := h.nodup
    simp only [List.map_cons, List.nodup_cons] at hnd
    have hnode1 : (st.heap ++ [some (node.mk page none none)])[t]?
        = some (some ⟨pt, none, prev⟩) := by
      rw [List.getElem?_append_left htlt]; exact hnode
    have hne : t ≠ st.heap.length := by omega
    have hnew2 : ((st.heap ++ [some (node.mk page none none)]).set t
        (some (node.mk pt (some st.heap.length) prev)))[st.heap.length]?
        = some (some (node.mk page none none)) := by
      rw [List.getElem?_set_ne hne]; exact hnew
    refine ⟨{ heap := ((st.heap ++ [some (node.mk page none none)]).set t
                (some (node.mk pt (some st.heap.length) prev))).set st.heap.length
                (some (node.mk page none (some t))),
              top := some st.heap.length, bottom := st.bottom }, ?_, ⟨?_, ?_, ?_⟩, ?_⟩
    · have hcond : ¬ (st.top = none ∧ st.bottom = none) := by
        rw [htop]; simp
      unfold push GetNewNode
      dsimp only
      rw [if_neg hcond, htop]
      have e1 := store_eq { st with heap := st.heap ++ [some (node.mk page none none)] }
        (fun x => { x with next := some st.heap.length }) hnode1
      rw [htop] at e1
      rw [e1]
      dsimp only
      have e2 := store_eq
        { heap := ((st.heap ++ [some (node.mk page none none)]).set t
            (some (node.mk pt (some st.heap.length) prev))),
          top := some t, bottom := st.bottom }
        (fun x => { x with previous := some t }) hnew2
      rw [e2]
    · refine ⟨rfl, some t, ?_, rfl, prev, ?_, ?_⟩
      · dsimp only
        rw [List.getElem?_set, if_pos rfl, if_pos (by simp)]
      · dsimp only
        rw [List.getElem?_set_ne (Ne.symm hne), List.getElem?_set, if_pos rfl,
          if_pos (by simp; omega)]
      · refine Chain.congr rest (some t) prev hrest ?_
        intro a ha
        have halt : a < st.heap.length := hlt a (by simp [ha])
        have hat : t ≠ a := fun hta => hnd.1 (hta ▸ ha)
        dsimp only
        rw [List.getElem?_set_ne (by omega), List.getElem?_set_ne hat,
          List.getElem?_append_left halt]
    · dsimp only
      rw [h.bottom_eq]
      simp
    · simp only [List.map_cons, List.nodup_cons]
      exact ⟨by simpa using hfresh, hnd⟩
    · simp

theorem list_shape {α : Type} : ∀ l : List α,
    l = [] ∨ (∃ b, l = [b]) ∨ ∃ front c b, l = front ++ [c, b]
  | [] => Or.inl rfl
  | x :: xs => by
    rcases list_shape xs with h | ⟨b, h⟩ | ⟨front, c, b, h⟩
    · exact Or.inr (Or.inl ⟨x, by rw [h]⟩)
    · exact Or.inr (Or.inr ⟨[], x, b, by rw [h]; rfl⟩)
    · exact Or.inr (Or.inr ⟨x :: front, c, b, by rw [h]; rfl⟩)

/-- The last two nodes of a chain. -/
theorem Chain.last_two {heap : List (Option node)} {c pc b pb : Nat} :
    ∀ (front : List (Nat × Nat)) (nx cur : Option Nat),
      Chain heap nx cur (front ++ [(c, pc), (b, pb)]) →
      ∃ nxc, heap[c]? = some (some ⟨pc, nxc, some b⟩) ∧
        heap[b]? = some (some ⟨pb, some c, none⟩)
  | [], nx, cur, h => by
    obtain ⟨-, prev, hc, hcur, prev2, hb, hend⟩ := h
    have hp2 : prev2 = none := hend
    subst hcur
    subst hp2
    exact ⟨nx, hc, hb⟩
  | (a, p) :: front, nx, cur, h => by
    obtain ⟨-, prev, -, hrest⟩ := h
    exact Chain.last_two front (some a) prev hrest

/-- Cutting the last node off a chain: the node before it gets
`previous = NULL`, the other nodes are as they were. -/
theorem Chain.drop_last {heap heap1 : List (Option node)} {c pc b pb : Nat}
    {nxc : Option Nat}
    (hc : heap[c]? = some (some ⟨pc, nxc, some b⟩))
    (hc1 : heap1[c]? = some (some ⟨pc, nxc, none⟩))
    (hag : ∀ a, a ≠ c → a ≠ b → heap1[a]? = heap[a]?) :
    ∀ (front : List (Nat × Nat)) (nx cur : Option Nat),
      Chain heap nx cur (front ++ [(c, pc), (b, pb)]) →
      ((front ++ [(c, pc), (b, pb)]).map Prod.fst).Nodup →
      Chain heap1 nx cur (front ++ [(c, pc)])
  | [], nx, cur, h, _ => by
    obtain ⟨hcur, prev, hc2, -⟩ := h
    rw [hc] at hc2
    simp only [Option.some.injEq, node.mk.injEq, true_and] at hc2
    obtain ⟨hnx, -⟩ := hc2
    subst hnx
    exact ⟨hcur, none, hc1, rfl⟩
  | (a, p) :: front, nx, cur, h, hnd => by
    obtain ⟨hcur, prev, ha, hrest⟩ := h
    simp only [List.cons_append, List.map_cons, List.nodup_cons, List.map_append,
      List.mem_append, List.mem_cons, not_or] at hnd
    have hac : a ≠ c := fun h => hnd.1.2.1 h
    have hab : a ≠ b := fun h => hnd.1.2.2.1 h
    refine ⟨hcur, prev, ?_, Chain.drop_last hc hc1 hag front (some a) prev hrest ?_⟩
    · rw [hag a hac hab]; exact ha
    · simpa using hnd.2

/-- On a well-formed stack of two nodes or more, whose bottom page `pb` is
mapped to a frame of the table, `drop` returns: it evicts that frame and cuts
the bottom node off. -/
theorem drop_rep {s : VM} {front : List (Nat × Nat)} {c pc b pb : Nat} {e : frameEntry}
    (h : Rep s.stack (front ++ [(c, pc), (b, pb)]))
    (he : s.frameTable[(s.pt pb).frame]? = some e) :
    ∃ s0 st1, remove_page s (s.pt pb).frame = .ok s0 ∧
      drop s = .ok ({ s0 with stack := st1 }, (s.pt pb).frame) ∧
      Rep st1 (front ++ [(c, pc)]) ∧ st1.heap.length = s.stack.heap.length := by
  obtain ⟨nxc, hc, hb⟩ := Chain.last_two front none s.stack.top h.chain
  have hbot : s.stack.bottom = some b := by
    rw [h.bottom_eq]; simp
  have hnd := h.nodup
  have hcb : c ≠ b := by
    intro hcb
    simp only [List.map_append, List.map_cons, List.map_nil, List.nodup_append,
      List.nodup_cons, List.mem_cons, List.mem_singleton, List.not_mem_nil, or_false] at hnd
    exact hnd.2.1.1 hcb
  have hclt : c < s.stack.heap.length := (List.getElem?_eq_some.mp hc).1
  have hblt : b < s.stack.heap.length := (List.getElem?_eq_some.mp hb).1
  have hb2 : (s.stack.heap.set c (some (node.mk pc nxc none)))[b]?
      = some (some ⟨pb, some c, none⟩) := by
    rw [List.getElem?_set_ne hcb]; exact hb
  refine ⟨_, ⟨(s.stack.heap.set c (some (node.mk pc nxc none))).set b none, s.stack.top,
    some c⟩, remove_page_eq he, ?_, ⟨?_, ?_, ?_⟩, by simp⟩
  · unfold drop page_table_get_entry
    rw [hbot, deref_eq hb]
    dsimp only
    rw [remove_page_eq he]
    dsimp only
    rw [hbot, deref_eq hb]
    dsimp only
    rw [store_eq s.stack (fun x => { x with previous := none }) hc]
    dsimp only
    rw [hbot, deref_eq hb2]
    dsimp only
    rw [free_eq { heap := s.stack.heap.set c (some (node.mk pc nxc none)),
                  top := s.stack.top, bottom := some c } hb2]
  · refine Chain.drop_last hc ?_ ?_ front none s.stack.top h.chain hnd
    · dsimp only
      rw [List.getElem?_set_ne (Ne.symm hcb), List.getElem?_set, if_pos rfl, if_pos hclt]
    · intro a hac hab
      dsimp only
      rw [List.getElem?_set_ne (Ne.symm hab), List.getElem?_set_ne (Ne.symm hac)]
  · simp
  · have hsub : List.Sublist (front ++ [(c, pc)]) (front ++ [(c, pc), (b, pb)]) := by
      apply List.Sublist.append_left
      simp
    exact (hsub.map Prod.fst).nodup hnd

/-- On a well-formed stack with fewer than two nodes `drop` does not return. -/
theorem drop_short {s : VM} {cells : List (Nat × Nat)} (h : Rep s.stack cells)
    (hlen : cells.length < 2) : ∃ err, drop s = .error err := by
  cases cells with
  | nil =>
    have hbot : s.stack.bottom = none := by simpa using h.bottom_eq
    refine ⟨Err.undefined, ?_⟩
    unfold drop
    rw [hbot]
    rfl
  | cons x rest =>
    obtain ⟨b, pb⟩ := x
    cases rest with
    | cons y rest2 => simp only [List.length_cons] at hlen; omega
    | nil =>
      obtain ⟨htop, prev, hb, hprev⟩ := h.chain
      have hbot : s.stack.bottom = some b := by
        rw [h.bottom_eq]; simp
      unfold drop page_table_get_entry
      rw [hbot, deref_eq hb]
      dsimp only
      cases hrm : remove_page s (s.pt pb).frame with
      | error err => exact ⟨err, rfl⟩
      | ok s0 =>
        obtain ⟨e, he, rfl⟩ := remove_page_ok hrm
        dsimp only
        rw [hbot, deref_eq hb]
        dsimp only
        rw [store_null]
        exact ⟨_, rfl⟩

/-- What a call of `lru` that returns does to the stack and the page table:
a write upgrade leaves the stack alone; a load into a free frame pushes the
page; a load with no free frame drops the bottom node and pushes the page. -/
theorem lru_stack_step {s s1 : VM} {page : Nat} (h : lru s page = .ok s1) :
    ((s.pt page).bits ≠ 0 ∧ s1.stack = s.stack ∧
        s1.pt = page_table_set_entry s.pt page (s.pt page).frame (PROT_READ ||| PROT_WRITE)) ∨
      ((s.pt page).bits = 0 ∧ ¬ find_free_frame s < 0 ∧ ∃ i : Nat,
        push s.stack page = .ok s1.stack ∧
        s1.pt = page_table_set_entry s.pt page i PROT_READ) ∨
      ((s.pt page).bits = 0 ∧ find_free_frame s < 0 ∧ ∃ sd frame s0,
        drop s = .ok (sd, frame) ∧ remove_page s frame = .ok s0 ∧
        sd.pt = s0.pt ∧ push sd.stack page = .ok s1.stack ∧
        s1.pt = page_table_set_entry s0.pt page frame PROT_READ) := by
  unfold lru page_table_get_entry at h
  simp only at h
  split at h
  · rename_i hb
    split at h
    · cases h
    · rename_i ev s2 index ex hev
      split at h
      · cases h
      · rename_i s3 hrd
        split at h
        · cases h
        · rename_i pushed s4 hpush
          have hpush1 : ex < 0 →
              push s3.stack page = .ok s4.stack ∧ s4.pt = s3.pt := by
            intro hex
            rw [if_pos hex] at hpush
            split at hpush
            · cases hpush
            · rename_i st hst
              simp only [Except.ok.injEq] at hpush
              subst hpush
              exact ⟨hst, rfl⟩
          by_cases hfree : find_free_frame s < 0
          · simp only [hfree, if_true] at hev
            split at hev
            · cases hev
            · split at hev
              · split at hev
                · cases hev
                · split at hev
                  · cases hev
                  · simp only [Except.ok.injEq, Prod.mk.injEq] at hev
                    obtain ⟨-, rfl, -⟩ := hev
                    have := disk_read_nonneg hrd
                    omega
              · rename_i hex
                split at hev
                · cases hev
                · rename_i s5 frame hdrop
                  simp only [Except.ok.injEq, Prod.mk.injEq] at hev
                  obtain ⟨rfl, rfl, rfl⟩ := hev
                  obtain ⟨s0, hrm, hs5⟩ := drop_ok hdrop
                  have h3 := disk_read_ok hrd
                  subst h3
                  obtain ⟨hp1, hp2⟩ := hpush1 (by omega)
                  obtain ⟨-, rfl⟩ := update_tables_ok h
                  have e0 : s5.pt = s0.pt := by rw [hs5]
                  have e1 : s4.pt = s0.pt := hp2.trans e0
                  refine Or.inr (Or.inr ⟨hb, hfree, s5, frame, s0, hdrop, hrm, e0, hp1, ?_⟩)
                  simp [e1]
          · simp only [hfree, if_false, Except.ok.injEq, Prod.mk.injEq] at hev
            obtain ⟨rfl, rfl, rfl⟩ := hev
            obtain ⟨i, hi, -, e, he, hz⟩ := find_free_frame_nonneg s hfree
            rw [hi] at h hrd
            have h3 := disk_read_ok hrd
            subst h3
            obtain ⟨hp1, hp2⟩ := hpush1 (by omega)
            obtain ⟨-, rfl⟩ := update_tables_ok h
            refine Or.inr (Or.inl ⟨hb, hfree, i, hp1, ?_⟩)
            simp [hp2]
  · rename_i hb
    split at h
    · obtain ⟨-, rfl⟩ := update_tables_ok h
      exact Or.inl ⟨hb, rfl, rfl⟩
    · cases h

theorem init_lruInv (nframes npages : Nat) : LruInv (init nframes npages) [] where
  rep := ⟨rfl, rfl, List.nodup_nil⟩
  pages_nodup := List.nodup_nil
  mem_iff := by intro p; simp [init]

theorem LruInv.lru_bump {s : VM} {cells : List (Nat × Nat)} (h : LruInv s cells) (n : Int) :
    LruInv { s with pageFaults := n } cells :=
  ⟨h.rep, h.pages_nodup, h.mem_iff⟩

theorem Consistent.bump {s : VM} (h : Consistent s) (n : Int) :
    Consistent { s with pageFaults := n } :=
  ⟨h.frame_lt, h.page_lt, h.pt_ft, h.ft_pt, h.count⟩

/-- The bottom page of the stack is mapped, to a frame that holds it. -/
theorem LruInv.bottom_frame {s : VM} {front : List (Nat × Nat)} {c pc b pb : Nat}
    (hc : Consistent s) (hi : LruInv s (front ++ [(c, pc), (b, pb)])) :
    s.frameTable[(s.pt pb).frame]? = some ⟨pb, (s.pt pb).bits⟩ ∧ (s.pt pb).bits ≠ 0 := by
  have hb : (s.pt pb).bits ≠ 0 := (hi.mem_iff pb).mp (by simp)
  exact ⟨hc.pt_ft pb hb, hb⟩

/-- A call of `lru` that returns keeps the stack as `LruInv` says. -/
theorem LruInv.lru_preserved {s s1 : VM} {page : Nat} {cells : List (Nat × Nat)}
    (hc : Consistent s) (hi : LruInv s cells) (h : lru s page = .ok s1) :
    ∃ cells1, LruInv s1 cells1 := by
  rcases lru_stack_step h with ⟨hb, hst, hpt⟩ | ⟨hb, -, i, hpush, hpt⟩ |
      ⟨hb, hfull, sd, frame, s0, hdrop, hrm, hsd, hpush, hpt⟩
  · refine ⟨cells, ?_, hi.pages_nodup, ?_⟩
    · rw [hst]; exact hi.rep
    · intro p
      rw [hpt]
      by_cases hp : p = page
      · subst hp
        simp only [page_table_set_entry, if_true]
        exact ⟨fun _ => by decide, fun _ => (hi.mem_iff p).mpr hb⟩
      · simp only [page_table_set_entry, hp, if_false]
        exact hi.mem_iff p
  · obtain ⟨st1, hp1, hrep, -⟩ := push_rep hi.rep page
    rw [hpush] at hp1
    simp only [Except.ok.injEq] at hp1
    subst hp1
    have hnot : page ∉ cells.map Prod.snd := fun hm => (hi.mem_iff page).mp hm hb
    refine ⟨_, hrep, ?_, ?_⟩
    · simp only [List.map_cons, List.nodup_cons]
      exact ⟨hnot, hi.pages_nodup⟩
    · intro p
      rw [hpt]
      by_cases hp : p = page
      · subst hp
        simp [page_table_set_entry, PROT_READ]
      · simp only [page_table_set_entry, hp, if_false, List.map_cons, List.mem_cons, false_or]
        exact hi.mem_iff p
  · rcases list_shape cells with hnil | ⟨x, hone⟩ | ⟨front, ⟨c, pc⟩, ⟨b, pb⟩, hshape⟩
    · obtain ⟨err, herr⟩ := drop_short hi.rep (by rw [hnil]; simp)
      rw [herr] at hdrop
      cases hdrop
    · obtain ⟨err, herr⟩ := drop_short hi.rep (by rw [hone]; simp)
      rw [herr] at hdrop
      cases hdrop
    · subst hshape
      obtain ⟨hfe, hpb⟩ := hi.bottom_frame hc
      obtain ⟨s0a, st1, hrm1, hdrop1, hrep1, -⟩ := drop_rep hi.rep hfe
      rw [hdrop1] at hdrop
      simp only [Except.ok.injEq, Prod.mk.injEq] at hdrop
      obtain ⟨hsd1, hframe⟩ := hdrop
      subst hframe
      rw [hrm1] at hrm
      simp only [Except.ok.injEq] at hrm
      subst hrm
      have hstack : sd.stack = st1 := by rw [← hsd1]
      obtain ⟨e, he, hs0⟩ := remove_page_ok hrm1
      rw [hfe] at he
      simp only [Option.some.injEq] at he
      subst he
      have hs0pt : s0a.pt = page_table_set_entry s.pt pb (s.pt pb).frame 0 := by
        rw [hs0]
      obtain ⟨st2, hp2, hrep2, -⟩ := push_rep hrep1 page
      rw [← hstack, hpush] at hp2
      simp only [Except.ok.injEq] at hp2
      subst hp2
      have hnd := hi.pages_nodup
      simp only [List.map_append, List.map_cons, List.map_nil] at hnd
      have hnd1 : (List.map Prod.snd front ++ [pc]).Nodup ∧
          pb ∉ List.map Prod.snd front ++ [pc] := by
        have : List.map Prod.snd front ++ [pc, pb]
            = (List.map Prod.snd front ++ [pc]) ++ [pb] := by simp
        rw [this, List.nodup_append] at hnd
        refine ⟨hnd.1, fun hm => hnd.2.2 hm (by simp)⟩
      have hmem : ∀ p, p ∈ List.map Prod.snd front ++ [pc] ↔
          ((s.pt p).bits ≠ 0 ∧ p ≠ pb) := by
        intro p
        have := hi.mem_iff p
        simp only [List.map_append, List.map_cons, List.map_nil, List.mem_append,
          List.mem_cons, List.mem_singleton, List.not_mem_nil, or_false] at this hnd1 ⊢
        constructor
        · intro hm
          refine ⟨this.mp (by tauto), ?_⟩
          intro hpb
          subst hpb
          exact hnd1.2 hm
        · rintro ⟨h1, h2⟩
          have := this.mpr h1
          tauto
      have hpage : page ∉ List.map Prod.snd front ++ [pc] := fun hm =>
        ((hmem page).mp hm).1 hb
      refine ⟨_, hrep2, ?_, ?_⟩
      · simp only [List.map_cons, List.map_append, List.map_nil, List.nodup_cons]
        exact ⟨hpage, hnd1.1⟩
      · intro p
        rw [hpt, hs0pt]
        simp only [List.map_cons, List.map_append, List.map_nil, List.mem_cons]
        by_cases hp : p = page
        · subst hp
          simp [page_table_set_entry, PROT_READ]
        · simp only [hp, false_or, page_table_set_entry, if_false]
          rw [hmem p]
          by_cases hpb2 : p = pb
          · simp [hpb2]
          · simp [hpb2]

theorem page_fault_handler_lru (alg : String) (h1 : alg ≠ "rand") (h2 : alg ≠ "fifo")
    (s : VM) (page r : Nat) :
    page_fault_handler alg s page r = lru { s with pageFaults := int32 (s.pageFaults + 1) } page := by
  simp [page_fault_handler, h1, h2]

/-- Every state a run of `lru` reaches from a state with a well-formed stack
has a well-formed stack. -/
theorem run_lruInv (alg : String) (h1 : alg ≠ "rand") (h2 : alg ≠ "fifo")
    (faults : List (Nat × Nat)) :
    ∀ (s s1 : VM) (cells : List (Nat × Nat)), Consistent s → LruInv s cells →
      (∀ x ∈ faults, x.1 < s.npages) → run alg s faults = .ok s1 →
      ∃ cells1, LruInv s1 cells1 := by
  induction faults with
  | nil =>
    intro s s1 cells _ hi _ h
    simp only [run, Except.ok.injEq] at h
    subst h
    exact ⟨cells, hi⟩
  | cons x rest ih =>
    intro s s1 cells hc hi hlt h
    obtain ⟨page, r⟩ := x
    simp only [run] at h
    split at h
    · cases h
    · rename_i s2 hstep
      obtain ⟨hts, hn, -⟩ := page_fault_handler_step hstep
      have hc2 := hts.consistent hn (hlt (page, r) (List.mem_cons_self _ _)) hc
      rw [page_fault_handler_lru alg h1 h2] at hstep
      obtain ⟨cells2, hi2⟩ := (hi.lru_bump (int32 (s.pageFaults + 1))).lru_preserved
        (hc.bump (int32 (s.pageFaults + 1))) hstep
      exact ih s2 s1 cells2 hc2 hi2
        (fun y hy => by rw [hn]; exact hlt y (List.mem_cons_of_mem _ hy)) h

/-- The stack has as many nodes as there are mapped pages. -/
theorem LruInv.length_mapped {s : VM} {cells : List (Nat × Nat)} (hc : Consistent s)
    (hi : LruInv s cells) : cells.length = mappedBelow s.pt s.npages := by
  have hnd : (resident s).Nodup := by
    unfold resident
    exact (List.nodup_range _).filter _
  have hperm : List.Perm (cells.map Prod.snd) (resident s) := by
    refine (List.perm_ext_iff_of_nodup hi.pages_nodup hnd).mpr ?_
    intro p
    rw [hi.mem_iff p]
    simp only [resident, List.mem_filter, List.mem_range, decide_eq_true_eq]
    exact ⟨fun h => ⟨hc.page_lt p h, h⟩, fun h => h.2⟩
  have := hperm.length_eq
  rw [List.length_map, resident_length] at this
  exact this

/-- When no frame is free the stack has as many nodes as there are frames. -/
theorem LruInv.length_full {s : VM} {cells : List (Nat × Nat)} (hc : Consistent s)
    (hi : LruInv s cells) (hfull : find_free_frame s < 0) :
    cells.length = s.frameTable.length := by
  have h1 : occupiedFrames s = s.frameTable.length := by
    unfold occupiedFrames
    rw [List.countP_eq_length]
    intro e he
    obtain ⟨n, hn⟩ := List.mem_iff_getElem?.mp he
    simpa using find_free_frame_neg s hfull n e hn
  rw [hi.length_mapped hc, ← hc.count, h1]

/-- With two frames or more, `lru` serves a fault on an unmapped page that
finds no free frame: the search of the stack returns `-1`, `drop` releases
the frame of the bottom page, and the page is pushed once and installed in
that frame. -/
theorem lru_evict_returns {s : VM} {cells : List (Nat × Nat)} (hc : Consistent s)
    (hi : LruInv s cells) (h2 : 2 ≤ s.frameTable.length) (hfull : find_free_frame s < 0)
    {page : Nat} (hb : (s.pt page).bits = 0) :
    find_in_stack s.stack page = .ok (-1) ∧
      ∃ s1 f, lru s page = .ok s1 ∧ f < s.frameTable.length ∧
        s1.pt page = ⟨f, PROT_READ⟩ ∧ s1.frameTable[f]? = some ⟨page, PROT_READ⟩ ∧
        (∃ l, s1.disk = l ++ [DiskOp.read page f]) ∧
        s1.stack.heap.length = s.stack.heap.length + 1 ∧
        print_stack s1.stack = .ok (page :: (cells.map Prod.snd).dropLast) := by
  have hnot : page ∉ cells.map Prod.snd := fun hm => (hi.mem_iff page).mp hm hb
  have hfind := hi.rep.find_in_stack_absent hnot
  refine ⟨hfind, ?_⟩
  have hlen := hi.length_full hc hfull
  rcases list_shape cells with hnil | ⟨x, hone⟩ | ⟨front, ⟨c, pc⟩, ⟨b, pb⟩, hshape⟩
  · rw [hnil] at hlen; simp at hlen; omega
  · rw [hone] at hlen; simp at hlen; omega
  · subst hshape
    obtain ⟨hfe, hpb⟩ := hi.bottom_frame hc
    have hflt : (s.pt pb).frame < s.frameTable.length := (List.getElem?_eq_some.mp hfe).1
    obtain ⟨s0, st1, hrm, hdrop, hrep1, hlen1⟩ := drop_rep hi.rep hfe
    obtain ⟨e, he, hs0⟩ := remove_page_ok hrm
    have hs0len : s0.frameTable.length = s.frameTable.length := by
      rw [hs0]; simp
    obtain ⟨st2, hpush, hrep2, hlen2⟩ := push_rep hrep1 page
    have hm1 : ¬ ((-1 : Int) ≥ 0) := by omega
    have hm2 : (-1 : Int) < 0 := by omega
    have hflt0 : (s.pt pb).frame < s0.frameTable.length := by rw [hs0len]; exact hflt
    unfold lru page_table_get_entry
    dsimp only
    rw [if_pos hb, if_pos hfull, hfind]
    dsimp only
    rw [if_neg hm1, hdrop]
    dsimp only
    rw [disk_read_eq _ _ _ (by simpa using hflt0)]
    dsimp only
    rw [if_pos hm2, hpush]
    dsimp only
    rw [update_tables_eq _ _ _ _ (by simpa using hflt0)]
    refine ⟨_, (s.pt pb).frame, rfl, hflt, ?_, ?_, ?_, ?_, ?_⟩
    · simp [page_table_set_entry]
    · dsimp only
      rw [List.getElem?_set, if_pos rfl, if_pos (by rw [hs0len]; exact hflt)]
    · exact ⟨_, rfl⟩
    · dsimp only
      rw [hlen2, hlen1]
    · dsimp only
      rw [hrep2.print_stack_eq]
      simp [List.dropLast_append_cons]

/-- With no frame at all, the first fault does not return. -/
theorem page_fault_handler_no_frames (alg : String) (npages page r : Nat) :
    page_fault_handler alg (init 0 npages) page r = .error Err.undefined := by
  unfold page_fault_handler
  dsimp only
  split
  · rfl
  · split
    · rfl
    · rfl

theorem run_no_frames (alg : String) (npages : Nat) (faults : List (Nat × Nat)) (s : VM)
    (h : run alg (init 0 npages) faults = .ok s) : s = init 0 npages := by
  cases faults with
  | nil =>
    simp only [run, Except.ok.injEq] at h
    exact h.symm
  | cons x rest =>
    obtain ⟨page, r⟩ := x
    simp only [run, page_fault_handler_no_frames] at h
    cases h

/-! ## The mapping of one page along a run -/

/-- C1 (fails on the code): with three frames, `fifo` serving faults on the
pages 1, 2, 3, 4, 5 from the initial state leaves the pages 1, 2 and 5
resident, not the last three pages 3, 4 and 5: the victim is each time the
frame filled last, and the log shows that only the pages 3 and then 4 left
(unwritten, so the log holds the five reads alone). -/
theorem fifo_keeps_oldest_pages :
    observe resident (run "fifo" (init 3 6) [(1, 0), (2, 0), (3, 0), (4, 0), (5, 0)])
        = .ok [1, 2, 5] ∧
      observe VM.frameTable (run "fifo" (init 3 6) [(1, 0), (2, 0), (3, 0), (4, 0), (5, 0)])
        = .ok [⟨1, PROT_READ⟩, ⟨2, PROT_READ⟩, ⟨5, PROT_READ⟩] ∧
      observe (fun s => (s.front, s.end_))
          (run "fifo" (init 3 6) [(1, 0), (2, 0), (3, 0), (4, 0), (5, 0)])
        = .ok (0, 0) := by
  decide

/-- C2 (fails on the code): with three frames, `lru` serving faults on the
pages 1, 2, 3, 1, 4 from the initial state evicts page 1, not page 2: the
second fault on page 1 upgrades it to read-write without moving its node, so
the fault on page 4 writes page 1 back and takes its frame, and the resident
pages are 2, 3 and 4. -/
theorem lru_retouch_is_not_promoted :
    observe resident (run "lru" (init 3 6) [(1, 0), (2, 0), (3, 0), (1, 0), (4, 0)])
        = .ok [2, 3, 4] ∧
      observe VM.disk (run "lru" (init 3 6) [(1, 0), (2, 0), (3, 0), (1, 0), (4, 0)])
        = .ok [DiskOp.read 1 0, DiskOp.read 2 1, DiskOp.read 3 2, DiskOp.write 1 0,
               DiskOp.read 4 0] := by
  decide

/-- C3 (fails on the code): under the random policy the one disk read of a
fault on an unmapped page is of the block numbered like the chosen frame, not
like the faulting page: a first fault on page 3 reads block 0 into frame 0 and
maps page 3 there; `fifo` and `lru` read block 3. -/
theorem rand_replace_reads_block_of_frame :
    observe VM.disk (run "rand" (init 2 4) [(3, 0)]) = .ok [DiskOp.read 0 0] ∧
      observe (fun s => s.pt 3) (run "rand" (init 2 4) [(3, 0)]) = .ok ⟨0, PROT_READ⟩ ∧
      observe VM.disk (run "fifo" (init 2 4) [(3, 0)]) = .ok [DiskOp.read 3 0] ∧
      observe VM.disk (run "lru" (init 2 4) [(3, 0)]) = .ok [DiskOp.read 3 0] := by
  decide

/-- C4: for every policy, a fault on a page mapped read-only to a frame `f`
of the table returns, leaves the page in frame `f` with protection
`PROT_READ|PROT_WRITE`, records `(page, PROT_READ|PROT_WRITE)` in frame `f`,
calls the disk neither for a read nor for a write (log and both counters
unchanged), and changes no other frame entry and no other page mapping. -/
theorem write_upgrade_keeps_frame (alg : String) (s : VM) (page r f : Nat)
    (hpt : s.pt page = ⟨f, PROT_READ⟩) (hf : f < s.nframes) :
    ∃ s1, page_fault_handler alg s page r = .ok s1 ∧
      s1.pt page = ⟨f, PROT_READ ||| PROT_WRITE⟩ ∧
      s1.frameTable[f]? = some ⟨page, PROT_READ ||| PROT_WRITE⟩ ∧
      s1.disk = s.disk ∧ s1.diskReads = s.diskReads ∧ s1.diskWrites = s.diskWrites ∧
      (∀ g, g ≠ f → s1.frameTable[g]? = s.frameTable[g]?) ∧
      (∀ q, q ≠ page → s1.pt q = s.pt q) := by
  refine ⟨_, page_fault_handler_upgrade alg s page r f hpt hf, ?_, ?_, rfl, rfl, rfl, ?_, ?_⟩
  · simp [page_table_set_entry]
  · have : f < s.frameTable.length := hf
    simp [List.getElem?_set, this]
  · intro g hg
    exact List.getElem?_set_ne (fun h => hg h.symm)
  · intro q hq
    simp [page_table_set_entry, hq]

/-- Witness of C4: page 1, loaded by a first fault into frame 0 of two, is
upgraded by a second fault. -/
theorem write_upgrade_keeps_frame_witness :
    ∃ s, run "fifo" (init 2 4) [(1, 0)] = .ok s ∧
      ∃ s1, page_fault_handler "fifo" s 1 0 = .ok s1 ∧
        s1.pt 1 = ⟨0, PROT_READ ||| PROT_WRITE⟩ ∧
        s1.frameTable[0]? = some ⟨1, PROT_READ ||| PROT_WRITE⟩ ∧
        s1.disk = s.disk ∧ s1.diskReads = s.diskReads ∧ s1.diskWrites = s.diskWrites ∧
        (∀ g, g ≠ 0 → s1.frameTable[g]? = s.frameTable[g]?) ∧
        (∀ q, q ≠ 1 → s1.pt q = s.pt q) := by
  obtain ⟨s, hs, hpt, hf⟩ : ∃ s, run "fifo" (init 2 4) [(1, 0)] = .ok s ∧
      s.pt 1 = ⟨0, PROT_READ⟩ ∧ 0 < s.nframes := ⟨_, rfl, by decide, by decide⟩
  exact ⟨s, hs, write_upgrade_keeps_frame "fifo" s 1 0 0 hpt hf⟩

/-- C6: in every state that a run of the handler, under one policy and on
pages below `npages`, reaches from the initial state with at least one frame,
the number of frames with a protection other than `PROT_NONE` equals the
number of mapped pages and is at most the frame count; a page `p` is mapped to
`(f, prot)` with `prot ≠ PROT_NONE` exactly when frame `f` holds `(p, prot)`;
and no two occupied frames hold the same page. -/
theorem frame_mapping_consistency (alg : String) (nframes npages : Nat)
    (faults : List (Nat × Nat)) (s : VM) (hF : 1 ≤ nframes)
    (hpages : ∀ x ∈ faults, x.1 < npages)
    (hrun : run alg (init nframes npages) faults = .ok s) :
    occupiedFrames s = (resident s).length ∧
      occupiedFrames s ≤ nframes ∧ s.nframes = nframes ∧
      (∀ p, (s.pt p).bits ≠ PROT_NONE → p < npages) ∧
      (∀ p f prot, prot ≠ PROT_NONE →
        (s.pt p = ⟨f, prot⟩ ↔ s.frameTable[f]? = some ⟨p, prot⟩)) ∧
      (∀ (f g : Nat) (e1 e2 : frameEntry),
        s.frameTable[f]? = some e1 → s.frameTable[g]? = some e2 →
        e1.bits ≠ PROT_NONE → e2.bits ≠ PROT_NONE → e1.page = e2.page → f = g) := by
  obtain ⟨hc, hn⟩ := run_consistent alg faults _ s (init_consistent nframes npages hF)
    hpages hrun
  have hlen : s.frameTable.length = nframes := by
    rw [run_length_eq alg faults _ s hrun, init_frameTable_length]
  refine ⟨?_, ?_, hlen, ?_, ?_, ?_⟩
  · rw [resident_length]; exact hc.count
  · rw [← hlen]; exact List.countP_le_length _
  · intro p hp
    have := hc.page_lt p hp
    rwa [hn] at this
  · intro p f prot hprot
    constructor
    · intro h
      have := hc.pt_ft p (by rw [h]; exact hprot)
      rwa [h] at this
    · intro h
      exact hc.ft_pt f ⟨p, prot⟩ h hprot
  · intro f g e1 e2 h1 h2 hb1 hb2 hpg
    have a := hc.ft_pt f e1 h1 hb1
    have b := hc.ft_pt g e2 h2 hb2
    rw [hpg, b] at a
    simp only [PTE.mk.injEq] at a
    exact a.1.symm

/-- Witness of C6: two frames, `lru`, faults on the pages 0, 1, 0, 2. -/
theorem frame_mapping_consistency_witness :
    ∃ s, run "lru" (init 2 3) [(0, 0), (1, 0), (0, 0), (2, 0)] = .ok s ∧
      occupiedFrames s = (resident s).length ∧ occupiedFrames s ≤ 2 ∧ s.nframes = 2 ∧
      (∀ p, (s.pt p).bits ≠ PROT_NONE → p < 3) ∧
      (∀ p f prot, prot ≠ PROT_NONE →
        (s.pt p = ⟨f, prot⟩ ↔ s.frameTable[f]? = some ⟨p, prot⟩)) ∧
      (∀ (f g : Nat) (e1 e2 : frameEntry),
        s.frameTable[f]? = some e1 → s.frameTable[g]? = some e2 →
        e1.bits ≠ PROT_NONE → e2.bits ≠ PROT_NONE → e1.page = e2.page → f = g) := by
  obtain ⟨s, hs⟩ : ∃ s, run "lru" (init 2 3) [(0, 0), (1, 0), (0, 0), (2, 0)] = .ok s :=
    ⟨_, rfl⟩
  exact ⟨s, hs, frame_mapping_consistency "lru" 2 3 _ s (by decide) (by decide) hs⟩

/-- C7 as stated fails: the counters are C `int`s. With one frame and one
page under the random policy, `2^31 - 1` faults on page 0 leave
`pageFaults = 2^31 - 1`, and the next fault wraps it to `-2^31`: that call
does not increase `pageFaults` by one, and afterwards `diskReads = 1` is
greater than `pageFaults`. -/
theorem page_faults_wrap :
    observe (fun s => (s.pageFaults, s.diskReads, s.diskWrites))
        (run "rand" (init 1 1) (List.replicate 2147483647 (0, 0)))
        = .ok (2147483647, 1, 0) ∧
      observe (fun s => (s.pageFaults, s.diskReads, s.diskWrites))
        (run "rand" (init 1 1) (List.replicate 2147483648 (0, 0)))
        = .ok (-2147483648, 1, 0) := by
  have key : ∀ n : Nat, observe (fun s => (s.pageFaults, s.diskReads, s.diskWrites))
      (run "rand" (init 1 1) (List.replicate (n + 1) (0, 0)))
      = .ok (int32 (1 + (n : Int)), 1, 0) := by
    intro n
    obtain ⟨s1, h1, hr, hf, hpf, hrd, hwr⟩ :
        ∃ s1, page_fault_handler "rand" (init 1 1) 0 0 = .ok s1 ∧
          (s1.pt 0).bits &&& PROT_READ ≠ 0 ∧ (s1.pt 0).frame < s1.frameTable.length ∧
          s1.pageFaults = 1 ∧ s1.diskReads = 1 ∧ s1.diskWrites = 0 :=
      ⟨_, rfl, by decide, by decide, by decide, by decide, by decide⟩
    obtain ⟨s2, h2, hpf2, hrd2, hwr2⟩ := run_refault "rand" 0 0 n s1 hr hf
      (by rw [hpf]; decide)
    rw [List.replicate_succ]
    simp only [run, h1, h2, observe_ok]
    rw [hpf2, hrd2, hwr2, hpf, hrd, hwr]
  refine ⟨?_, ?_⟩
  · rw [show (2147483647 : Nat) = 2147483646 + 1 from rfl, key 2147483646]
    norm_num [int32]
  · rw [show (2147483648 : Nat) = 2147483647 + 1 from rfl, key 2147483647]
    norm_num [int32]

/-- C7, amended: in every state that fewer than `2^31` calls of the handler
reach from the initial state, under any policy, `pageFaults` is the number of
calls made, and `diskReads` and `diskWrites` lie between 0 and `pageFaults`;
every further call that returns applies `++` to `pageFaults`, and when it
keeps the number of calls below `2^31` it adds exactly one to `pageFaults`
and decreases neither `diskReads` nor `diskWrites`. -/
theorem counter_bounds (alg : String) (nframes npages : Nat) (faults : List (Nat × Nat))
    (s : VM) (hlen : faults.length < 2147483648)
    (hrun : run alg (init nframes npages) faults = .ok s) :
    s.pageFaults = faults.length ∧ s.diskReads ≤ s.pageFaults ∧
      s.diskWrites ≤ s.pageFaults ∧ 0 ≤ s.diskReads ∧ 0 ≤ s.diskWrites ∧
      ∀ page r s1, page_fault_handler alg s page r = .ok s1 →
        s1.pageFaults = int32 (s.pageFaults + 1) ∧
        (faults.length + 1 < 2147483648 →
          s1.pageFaults = s.pageFaults + 1 ∧ s.diskReads ≤ s1.diskReads ∧
            s.diskWrites ≤ s1.diskWrites) := by
  have h0 : (init nframes npages).pageFaults = 0 := rfl
  have h1 : (init nframes npages).diskReads = 0 := rfl
  have h2 : (init nframes npages).diskWrites = 0 := rfl
  obtain ⟨a, b, c, d, e⟩ := run_counters alg faults _ s hrun (by rw [h0])
    (by rw [h0]; omega) (by rw [h1]) (by rw [h1, h0]) (by rw [h2]) (by rw [h2, h0])
  rw [h0, zero_add] at a
  refine ⟨a, c, e, b, d, ?_⟩
  intro page r s1 hstep
  obtain ⟨hts, -, hpf⟩ := page_fault_handler_step hstep
  refine ⟨hpf, ?_⟩
  intro hlen1
  have hc := hts.counters
  refine ⟨?_, ?_, ?_⟩
  · rw [hpf]
    exact int32_of_range _ (by omega) (by omega)
  · rcases hc.1 with h | h
    · omega
    · rw [h, int32_of_range _ (by omega) (by omega)]
      omega
  · rcases hc.2 with h | h
    · omega
    · rw [h, int32_of_range _ (by omega) (by omega)]
      omega

/-- Witness of C7, amended: one frame, random policy, a load, a write and a
load that evicts; a fourth call then returns as well. -/
theorem counter_bounds_witness :
    ∃ s, run "rand" (init 1 2) [(0, 5), (0, 5), (1, 5)] = .ok s ∧
      s.pageFaults = 3 ∧ s.diskReads ≤ s.pageFaults ∧ s.diskWrites ≤ s.pageFaults ∧
      ∃ s1, page_fault_handler "rand" s 0 7 = .ok s1 ∧ s1.pageFaults = s.pageFaults + 1 ∧
        s.diskReads ≤ s1.diskReads ∧ s.diskWrites ≤ s1.diskWrites := by
  obtain ⟨s, hs, s1, hs1⟩ : ∃ s, run "rand" (init 1 2) [(0, 5), (0, 5), (1, 5)] = .ok s ∧
      ∃ s1, page_fault_handler "rand" s 0 7 = .ok s1 := ⟨_, rfl, _, rfl⟩
  obtain ⟨a, b, c, -, -, d⟩ := counter_bounds "rand" 1 2 _ s (by decide) hs
  exact ⟨s, hs, a, b, c, s1, hs1, (d 0 7 s1 hs1).2 (by decide)⟩

/-- C8: when the frame count is at least the page count, in every state that
a run of the handler, under any policy and on pages below `npages`, reaches
from the initial state, `remove_page` has never been called, `diskWrites` is
0, and for every unmapped page below `npages` `find_free_frame` returns a
frame index, not `-1`. -/
theorem no_eviction_when_memory_suffices (alg : String) (nframes npages : Nat)
    (faults : List (Nat × Nat)) (s : VM) (h1 : 1 ≤ npages) (h2 : npages ≤ nframes)
    (hpages : ∀ x ∈ faults, x.1 < npages)
    (hrun : run alg (init nframes npages) faults = .ok s) :
    s.removeCalls = 0 ∧ s.diskWrites = 0 ∧
      ∀ p, p < npages → (s.pt p).bits = PROT_NONE →
        find_free_frame s ≠ -1 ∧ 0 ≤ find_free_frame s ∧
          find_free_frame s < (nframes : Int) := by
  have hc0 := init_consistent nframes npages (by omega)
  obtain ⟨hc, hn⟩ := run_consistent alg faults _ s hc0 hpages hrun
  have hlen : s.frameTable.length = nframes := by
    rw [run_length_eq alg faults _ s hrun, init_frameTable_length]
  obtain ⟨a, b⟩ := run_no_eviction alg faults _ s hc0
    (by rw [init_frameTable_length]; exact h2) hpages hrun
  refine ⟨a, b, ?_⟩
  intro p hp hb
  have hfree := free_frame_of_unmapped hc (by rw [hn, hlen]; exact h2)
    (by rw [hn]; exact hp) hb
  obtain ⟨i, hi, hilt, -⟩ := find_free_frame_nonneg s hfree
  rw [hi]
  omega

/-- Witness of C8: three frames for three pages, under `lru`. -/
theorem no_eviction_when_memory_suffices_witness :
    ∃ s, run "lru" (init 3 3) [(2, 0), (0, 0), (2, 0)] = .ok s ∧
      s.removeCalls = 0 ∧ s.diskWrites = 0 ∧ (s.pt 1).bits = PROT_NONE ∧
      find_free_frame s ≠ -1 := by
  obtain ⟨s, hs, hb⟩ : ∃ s, run "lru" (init 3 3) [(2, 0), (0, 0), (2, 0)] = .ok s ∧
      (s.pt 1).bits = PROT_NONE := ⟨_, rfl, by decide⟩
  obtain ⟨a, b, c⟩ :=
    no_eviction_when_memory_suffices "lru" 3 3 _ s (by decide) (by decide) (by decide) hs
  exact ⟨s, hs, a, b, hb, (c 1 (by decide) hb).1⟩

/-- C10 (fails on the code): with one frame, `lru` serves a first fault on
page 0 and does not return from the fault on page 1 that follows: `drop`
assigns through `bottom->next`, which is `NULL` when the stack has one node.
The random policy and `fifo` serve both faults. -/
theorem lru_single_frame_null_dereference :
    observe (fun s => s.pt 0) (run "lru" (init 1 2) [(0, 0)]) = .ok ⟨0, PROT_READ⟩ ∧
      observe (fun s => (find_free_frame s, observe Prod.snd (drop s)))
          (run "lru" (init 1 2) [(0, 0)])
        = .ok (-1, .error Err.undefined) ∧
      observe (fun s => s.pt 1) (run "lru" (init 1 2) [(0, 0), (1, 0)])
        = .error Err.undefined ∧
      observe (fun s => s.pt 1) (run "rand" (init 1 2) [(0, 0), (1, 0)])
        = .ok ⟨0, PROT_READ⟩ ∧
      observe (fun s => s.pt 1) (run "fifo" (init 1 2) [(0, 0), (1, 0)])
        = .ok ⟨0, PROT_READ⟩ := by
  decide

/-- C11 (fails on the code): a fault on a page mapped `PROT_READ|PROT_WRITE`
is not fatal. Under each policy, a third fault on page 0 (mapped read-write by
the first two) returns normally: the test `bits & PROT_READ` of the upgrade
branch holds for `PROT_READ|PROT_WRITE` too, so the branch that prints the
error and exits is not reached; three faults are counted and the page keeps
its frame and protection. -/
theorem fault_on_read_write_page_returns :
    observe (fun s => s.pt 0) (run "rand" (init 1 2) [(0, 0), (0, 0)])
        = .ok ⟨0, PROT_READ ||| PROT_WRITE⟩ ∧
      observe (fun s => (s.pt 0, s.pageFaults))
          (run "rand" (init 1 2) [(0, 0), (0, 0), (0, 0)])
        = .ok (⟨0, PROT_READ ||| PROT_WRITE⟩, 3) ∧
      observe (fun s => (s.pt 0, s.pageFaults))
          (run "fifo" (init 1 2) [(0, 0), (0, 0), (0, 0)])
        = .ok (⟨0, PROT_READ ||| PROT_WRITE⟩, 3) ∧
      observe (fun s => (s.pt 0, s.pageFaults))
          (run "lru" (init 1 2) [(0, 0), (0, 0), (0, 0)])
        = .ok (⟨0, PROT_READ ||| PROT_WRITE⟩, 3) := by
  decide

/-- C13: `find_free_frame` returns the index `i` exactly when `i` is the
smallest index of the frame table whose protection bits are 0, and returns
`-1` exactly when no frame has protection bits 0. It is a function of the
state to an integer: it returns no state, so it changes none. -/
theorem find_free_frame_first_free (s : VM) :
    (∀ i : Nat, find_free_frame s = (i : Int) ↔
      ((∃ e, s.frameTable[i]? = some e ∧ e.bits = 0) ∧
        ∀ j, j < i → ∀ e, s.frameTable[j]? = some e → e.bits ≠ 0)) ∧
      (find_free_frame s = -1 ↔ ∀ e ∈ s.frameTable, e.bits ≠ 0) := by
  constructor
  · intro i
    constructor
    · intro h
      obtain ⟨k, hk, hfree, hmin⟩ := scanFree_nonneg s.frameTable 0
        (by rw [show scanFree s.frameTable 0 = (i : Int) from h]; omega)
      have hki : k = i := by
        have : scanFree s.frameTable 0 = (i : Int) := h
        rw [this] at hk
        omega
      subst hki
      exact ⟨hfree, hmin⟩
    · rintro ⟨⟨e, he, hz⟩, hmin⟩
      by_cases hneg : find_free_frame s < 0
      · exact absurd hz (find_free_frame_neg s hneg i e he)
      · obtain ⟨k, hk, ⟨e1, he1, hz1⟩, hmin1⟩ := scanFree_nonneg s.frameTable 0 hneg
        have hki : k = i := by
          rcases Nat.lt_trichotomy k i with h1 | h1 | h1
          · exact absurd hz1 (hmin k h1 e1 he1)
          · exact h1
          · exact absurd hz (hmin1 i h1 e he)
        subst hki
        show scanFree s.frameTable 0 = _
        rw [hk]
        simp
  · constructor
    · intro h
      exact scanFree_neg s.frameTable 0 (by rw [show scanFree s.frameTable 0 = -1 from h]; omega)
    · intro h
      by_cases hneg : find_free_frame s < 0
      · have := find_free_frame_ge s
        omega
      · obtain ⟨k, -, ⟨e, he, hz⟩, -⟩ := scanFree_nonneg s.frameTable 0 hneg
        exact absurd hz (h e (List.getElem?_mem he))

/-- C15 (fails on the code): the cursors of `fifo` never advance. With three
frames, after the first installation (page 1 into frame 0) `end` is still 0,
not 1; the next installations overwrite slot 0 of the queue; and after the
eviction caused by the fault on page 4 `front` is still 0, not 1. The victim
of that eviction is the frame stored at the front cursor, frame 2. -/
theorem fifo_cursors_do_not_advance :
    observe (fun s => (s.front, s.end_, s.fifoArray)) (run "fifo" (init 3 6) [(1, 0)])
        = .ok (0, 0, [0, 0, 0]) ∧
      observe (fun s => (s.front, s.end_, s.fifoArray))
          (run "fifo" (init 3 6) [(1, 0), (2, 0), (3, 0)])
        = .ok (0, 0, [2, 0, 0]) ∧
      observe find_free_frame (run "fifo" (init 3 6) [(1, 0), (2, 0), (3, 0)]) = .ok (-1) ∧
      observe (fun s => (s.front, s.end_, s.fifoArray))
          (run "fifo" (init 3 6) [(1, 0), (2, 0), (3, 0), (4, 0)])
        = .ok (0, 0, [2, 0, 0]) ∧
      observe (fun s => (s.removeCalls, s.pt 3, s.pt 4))
          (run "fifo" (init 3 6) [(1, 0), (2, 0), (3, 0), (4, 0)])
        = .ok (1, PTE.mk 2 PROT_NONE, PTE.mk 2 PROT_READ) := by
  decide

/-- C16 (fails on the code): under `lru` with three frames, after faults on
the pages 1 and 2 the stack reads 2, 1 from the top; the next fault on page 1,
mapped read-only, upgrades it to read-write and leaves the stack as it was:
page 2 is still the top node, not page 1. -/
theorem lru_upgrade_does_not_promote :
    observe (fun s => (print_stack s.stack, s.pt 1)) (run "lru" (init 3 6) [(1, 0), (2, 0)])
        = .ok (.ok [2, 1], ⟨0, PROT_READ⟩) ∧
      observe (fun s => (print_stack s.stack, s.pt 1))
          (run "lru" (init 3 6) [(1, 0), (2, 0), (1, 0)])
        = .ok (.ok [2, 1], ⟨0, PROT_READ ||| PROT_WRITE⟩) ∧
      observe VM.stack (run "lru" (init 3 6) [(1, 0), (2, 0), (1, 0)])
        = observe VM.stack (run "lru" (init 3 6) [(1, 0), (2, 0)]) := by
  decide

/-- C17 (fails on the code): on the well-formed stack that three calls of
`push` build for the pages 1, 2, 3 (read 3, 2, 1 from the top), `move_to_top`
of the middle node gives the stack 2, 3, 1 and `move_to_top` of the top node
changes nothing, but `move_to_top` of the bottom node (page 1) leaves a list
that reads 1 alone from the top: the moved node keeps `previous = NULL`
(line 143 assigns `top` instead), and the new bottom (page 2) keeps its
`previous` link to the moved node. -/
theorem move_to_top_of_bottom_breaks_list :
    ((push ⟨[], none, none⟩ 1).bind fun st => (push st 2).bind fun st => push st 3)
        = .ok ⟨[some ⟨1, some 1, none⟩, some ⟨2, some 2, some 0⟩, some ⟨3, none, some 1⟩],
               some 2, some 0⟩ ∧
      print_stack ⟨[some ⟨1, some 1, none⟩, some ⟨2, some 2, some 0⟩, some ⟨3, none, some 1⟩],
                   some 2, some 0⟩ = .ok [3, 2, 1] ∧
      observe print_stack
          (move_to_top
            ⟨[some ⟨1, some 1, none⟩, some ⟨2, some 2, some 0⟩, some ⟨3, none, some 1⟩],
              some 2, some 0⟩ (some 1))
        = .ok (.ok [2, 3, 1]) ∧
      move_to_top
          ⟨[some ⟨1, some 1, none⟩, some ⟨2, some 2, some 0⟩, some ⟨3, none, some 1⟩],
            some 2, some 0⟩ (some 2)
        = .ok ⟨[some ⟨1, some 1, none⟩, some ⟨2, some 2, some 0⟩, some ⟨3, none, some 1⟩],
               some 2, some 0⟩ ∧
      observe print_stack
          (move_to_top
            ⟨[some ⟨1, some 1, none⟩, some ⟨2, some 2, some 0⟩, some ⟨3, none, some 1⟩],
              some 2, some 0⟩ (some 0))
        = .ok (.ok [1]) ∧
      move_to_top
          ⟨[some ⟨1, some 1, none⟩, some ⟨2, some 2, some 0⟩, some ⟨3, none, some 1⟩],
            some 2, some 0⟩ (some 0)
        = .ok ⟨[some ⟨1, none, none⟩, some ⟨2, some 2, some 0⟩, some ⟨3, some 0, some 1⟩],
               some 0, some 1⟩ := by
  decide

/-- C18: in `rand_replace`, on a fault on an unmapped page with no free frame,
for every frame count at least 1 and every value `r < 2^31` of `lrand48`, the
victim `r % nframes` is a frame index, `remove_page` is applied to it whatever
its entry `e` holds, and the page is installed there; and the random policy
neither reads nor writes the FIFO cursors, the FIFO array or the LRU stack:
with other values for them the call does the same and returns them as they
were. -/
theorem rand_victim_in_range (s : VM) (page r : Nat)
    (hun : (s.pt page).bits = PROT_NONE) (hfull : find_free_frame s = -1)
    (hn : 1 ≤ s.nframes) (_hr : r < 2 ^ 31) :
    r % s.nframes < s.nframes ∧
      (∃ e s1, s.frameTable[r % s.nframes]? = some e ∧
        remove_page s (r % s.nframes) = .ok s1 ∧
        rand_replace s page r = .ok { s1 with
          diskReads := int32 (s1.diskReads + 1),
          disk := s1.disk ++ [DiskOp.read (r % s.nframes) (r % s.nframes)],
          pt := page_table_set_entry s1.pt page (r % s.nframes) PROT_READ,
          frameTable := s1.frameTable.set (r % s.nframes) ⟨page, PROT_READ⟩ }) ∧
      ∀ (a b : Nat) (c : List Nat) (d : Stack),
        rand_replace { s with front := a, end_ := b, fifoArray := c, stack := d } page r
          = observe (fun t : VM => { t with front := a, end_ := b, fifoArray := c, stack := d })
              (rand_replace s page r) := by
  have hlt : r % s.nframes < s.nframes := Nat.mod_lt _ (by omega)
  have hlt1 : r % s.nframes < s.frameTable.length := hlt
  obtain ⟨e, he⟩ : ∃ e, s.frameTable[r % s.nframes]? = some e :=
    ⟨_, List.getElem?_eq_getElem hlt1⟩
  have hneg : find_free_frame s < 0 := by rw [hfull]; omega
  have hrm := remove_page_eq he
  refine ⟨hlt, ⟨e, _, he, hrm, ?_⟩, rand_replace_frame s page r⟩
  have h0 : ¬ s.nframes = 0 := by omega
  have hun0 : (s.pt page).bits = 0 := hun
  unfold rand_replace page_table_get_entry
  dsimp only
  rw [if_pos hun0, if_pos hneg, if_neg h0, hrm]
  dsimp only
  rw [Int.toNat_ofNat, disk_read_eq _ _ _ (by simpa using hlt1)]
  dsimp only
  rw [update_tables_eq _ _ _ _ (by simpa using hlt1)]

/-- Witness of C18: two frames, both filled by faults on the pages 0 and 1;
a fault on page 2 with `lrand48() = 7` evicts frame 1. -/
theorem rand_victim_in_range_witness :
    ∃ s, run "rand" (init 2 4) [(0, 0), (1, 0)] = .ok s ∧
      (s.pt 2).bits = PROT_NONE ∧ find_free_frame s = -1 ∧
      7 % s.nframes < s.nframes ∧
      ∃ e s1, s.frameTable[7 % s.nframes]? = some e ∧
        remove_page s (7 % s.nframes) = .ok s1 ∧
        rand_replace s 2 7 = .ok { s1 with
          diskReads := int32 (s1.diskReads + 1),
          disk := s1.disk ++ [DiskOp.read (7 % s.nframes) (7 % s.nframes)],
          pt := page_table_set_entry s1.pt 2 (7 % s.nframes) PROT_READ,
          frameTable := s1.frameTable.set (7 % s.nframes) ⟨2, PROT_READ⟩ } := by
  obtain ⟨s, hs, hun, hfull, hn⟩ : ∃ s, run "rand" (init 2 4) [(0, 0), (1, 0)] = .ok s ∧
      (s.pt 2).bits = PROT_NONE ∧ find_free_frame s = -1 ∧ 1 ≤ s.nframes :=
    ⟨_, rfl, by decide, by decide, by decide⟩
  obtain ⟨a, b, -⟩ := rand_victim_in_range s 2 7 hun hfull hn (by decide)
  exact ⟨s, hs, hun, hfull, a, b⟩

/-- C20: in every state that a run of `fifo` reaches from the initial state
with at least one frame, `front` and `end` are 0; every slot of the queue
array but slot 0 holds what it held at the start; every fault on an unmapped
page returns (so the exit after `Error in FIFO` is not taken); and when no
frame is free, the frame `v` at the front cursor is the frame of the last call
to the disk, the read of the latest unmapped-page fault, and the next fault on
an unmapped page evicts `v` and no other frame: the state it returns is the
state that `remove_page` applied to `v` returns, with block `page` read into
`v`, `v` stored at `fifoArray[end]`, `end` taken modulo `nframes`, and `page`
mapped read-only to `v`. The entry of `v` is in use, and when the faults of
the run are on pages below `npages`, the page it names was mapped to `v`, is
not the faulting page, and is unmapped afterwards. -/
theorem fifo_cursors_constant (nframes npages : Nat) (faults : List (Nat × Nat)) (s : VM)
    (hF : 1 ≤ nframes) (hrun : run "fifo" (init nframes npages) faults = .ok s) :
    s.front = 0 ∧ s.end_ = 0 ∧
      (∀ k, 1 ≤ k → s.fifoArray[k]? = (init nframes npages).fifoArray[k]?) ∧
      (∀ page r, (s.pt page).bits = PROT_NONE →
        ∃ s1, page_fault_handler "fifo" s page r = .ok s1) ∧
      (find_free_frame s = -1 →
        ∃ l blk v, s.disk = l ++ [DiskOp.read blk v] ∧ s.fifoArray[s.front]? = some v ∧
          v < nframes ∧
          ∀ page r, (s.pt page).bits = PROT_NONE →
            (∃ s1, page_fault_handler "fifo" s page r = .ok s1 ∧
              s1.pt page = ⟨v, PROT_READ⟩ ∧ s1.removeCalls = s.removeCalls + 1) ∧
            ∃ e s0, s.frameTable[v]? = some e ∧ e.bits ≠ PROT_NONE ∧
              remove_page { s with pageFaults := int32 (s.pageFaults + 1) } v = .ok s0 ∧
              page_fault_handler "fifo" s page r = .ok { s0 with
                diskReads := int32 (s0.diskReads + 1),
                disk := s0.disk ++ [DiskOp.read page v],
                fifoArray := s0.fifoArray.set s0.end_ v,
                end_ := s0.end_ % s0.nframes,
                pt := page_table_set_entry s0.pt page v PROT_READ,
                frameTable := s0.frameTable.set v ⟨page, PROT_READ⟩ } ∧
              ((∀ x ∈ faults, x.1 < npages) →
                s.pt e.page = ⟨v, e.bits⟩ ∧ e.page ≠ page ∧
                ∀ s1, page_fault_handler "fifo" s page r = .ok s1 →
                  (s1.pt e.page).bits = PROT_NONE)) := by
  have hi := run_fifoInv faults _ s (init_fifoInv nframes npages hF) hrun
  have hlen : s.frameTable.length = nframes := by
    rw [run_length_eq "fifo" faults _ s hrun, init_frameTable_length]
  refine ⟨hi.front_eq, hi.end_eq, ?_, ?_, ?_⟩
  · intro k hk
    rw [hi.rest k hk, hlen]
    rfl
  · intro page r hb
    rw [page_fault_handler_fifo]
    obtain ⟨s1, h1, -⟩ := fifo_unmapped_returns (hi.fifo_bump (int32 (s.pageFaults + 1))) page hb
    exact ⟨s1, h1⟩
  · intro hfull
    have hneg : find_free_frame s < 0 := by rw [hfull]; omega
    rcases hi.last with ⟨-, -, hfree⟩ | ⟨l, blk, v, h1, h2⟩
    · exfalso
      obtain ⟨e, he⟩ : ∃ e, s.frameTable[0]? = some e :=
        ⟨_, List.getElem?_eq_getElem (by omega)⟩
      exact find_free_frame_neg s hneg 0 e he (hfree e (List.getElem?_mem he))
    · obtain ⟨w, hw, hwlt⟩ := hi.slot0
      have hvw : w = v := by
        rw [hw] at h2
        simpa using h2
      subst hvw
      have hfront : s.fifoArray[s.front]? = some w := by rw [hi.front_eq]; exact hw
      refine ⟨l, blk, w, h1, hfront, by omega, ?_⟩
      intro page r hb
      obtain ⟨e, he⟩ : ∃ e, s.frameTable[w]? = some e := ⟨_, List.getElem?_eq_getElem hwlt⟩
      have hbits : e.bits ≠ 0 := find_free_frame_neg s hneg w e he
      have hend : s.end_ < s.fifoArray.length := by
        rw [hi.end_eq, hi.length_eq]; omega
      have hfe : s.front = s.end_ := by rw [hi.front_eq, hi.end_eq]
      obtain ⟨s0, hrm, hfifo⟩ :=
        fifo_evict_eq (s := { s with pageFaults := int32 (s.pageFaults + 1) })
          hb hneg hfe hfront he hend
      refine ⟨?_, e, s0, he, hbits, hrm, ?_, ?_⟩
      · rw [page_fault_handler_fifo]
        obtain ⟨s1, h3, h4⟩ :=
          fifo_unmapped_returns (hi.fifo_bump (int32 (s.pageFaults + 1))) page hb
        exact ⟨s1, h3, h4 hneg w hfront⟩
      · rw [page_fault_handler_fifo]
        exact hfifo
      · intro hpages
        obtain ⟨hc, -⟩ := run_consistent "fifo" faults _ s (init_consistent nframes npages hF)
          hpages hrun
        have hpe : s.pt e.page = ⟨w, e.bits⟩ := hc.ft_pt w e he hbits
        have hne : e.page ≠ page := by
          intro heq
          rw [heq] at hpe
          rw [hpe] at hb
          exact hbits hb
        refine ⟨hpe, hne, ?_⟩
        intro s1 h5
        rw [page_fault_handler_fifo, hfifo] at h5
        simp only [Except.ok.injEq] at h5
        subst h5
        have hrm1 := remove_page_eq (s := { s with pageFaults := int32 (s.pageFaults + 1) }) he
        rw [hrm1] at hrm
        simp only [Except.ok.injEq] at hrm
        subst hrm
        simp [page_table_set_entry, hne, PROT_NONE]

/-- Witness of C20: two frames, faults on the pages 0, 1, 0, 2; the fault on
page 2 evicted frame 1, the frame filled last, and the next fault on an
unmapped page evicts frame 1 again, now page 2. -/
theorem fifo_cursors_constant_witness :
    ∃ s, run "fifo" (init 2 4) [(0, 0), (1, 0), (0, 0), (2, 0)] = .ok s ∧
      s.front = 0 ∧ s.end_ = 0 ∧ find_free_frame s = -1 ∧
      s.frameTable = [⟨0, PROT_READ ||| PROT_WRITE⟩, ⟨2, PROT_READ⟩] ∧
      (∀ k, 1 ≤ k → s.fifoArray[k]? = (init 2 4).fifoArray[k]?) ∧
      (∀ page r, (s.pt page).bits = PROT_NONE →
        ∃ s1, page_fault_handler "fifo" s page r = .ok s1) ∧
      ∃ l blk v, s.disk = l ++ [DiskOp.read blk v] ∧ s.fifoArray[s.front]? = some v ∧
        v < 2 ∧ v = 1 ∧
        ∀ page r, (s.pt page).bits = PROT_NONE →
          (∃ s1, page_fault_handler "fifo" s page r = .ok s1 ∧
            s1.pt page = ⟨v, PROT_READ⟩ ∧ s1.removeCalls = s.removeCalls + 1) ∧
          ∃ e s0, s.frameTable[v]? = some e ∧ e.bits ≠ PROT_NONE ∧
            remove_page { s with pageFaults := int32 (s.pageFaults + 1) } v = .ok s0 ∧
            page_fault_handler "fifo" s page r = .ok { s0 with
              diskReads := int32 (s0.diskReads + 1),
              disk := s0.disk ++ [DiskOp.read page v],
              fifoArray := s0.fifoArray.set s0.end_ v,
              end_ := s0.end_ % s0.nframes,
              pt := page_table_set_entry s0.pt page v PROT_READ,
              frameTable := s0.frameTable.set v ⟨page, PROT_READ⟩ } ∧
            s.pt e.page = ⟨v, e.bits⟩ ∧ e.page ≠ page ∧
            ∀ s1, page_fault_handler "fifo" s page r = .ok s1 →
              (s1.pt e.page).bits = PROT_NONE := by
  obtain ⟨s, hs, hfull, hft, harr⟩ :
      ∃ s, run "fifo" (init 2 4) [(0, 0), (1, 0), (0, 0), (2, 0)] = .ok s ∧
        find_free_frame s = -1 ∧
        s.frameTable = [⟨0, PROT_READ ||| PROT_WRITE⟩, ⟨2, PROT_READ⟩] ∧
        s.fifoArray[0]? = some 1 :=
    ⟨_, rfl, by decide, by decide, by decide⟩
  obtain ⟨a, b, c, d, e⟩ := fifo_cursors_constant 2 4 _ s (by decide) hs
  obtain ⟨l, blk, v, h1, h2, h3, h4⟩ := e hfull
  have hv : v = 1 := by
    rw [a, harr] at h2
    simpa using h2.symm
  refine ⟨s, hs, a, b, hfull, hft, c, d, l, blk, v, h1, h2, h3, hv, ?_⟩
  intro page r hb
  obtain ⟨old, e, s0, e1, e2, e3, e4, e5⟩ := h4 page r hb
  exact ⟨old, e, s0, e1, e2, e3, e4, e5 (by decide)⟩

/-- C12: in every state that a run of `lru` (any selector other than `"rand"`
and `"fifo"`), on pages below `npages`, reaches from the initial state, the
walk of the stack from `top` down the `previous` links ends, and the pages it
meets are exactly the mapped pages, each met once. -/
theorem lru_list_matches_residency (alg : String) (h1 : alg ≠ "rand") (h2 : alg ≠ "fifo")
    (nframes npages : Nat) (faults : List (Nat × Nat)) (s : VM)
    (hpages : ∀ x ∈ faults, x.1 < npages)
    (hrun : run alg (init nframes npages) faults = .ok s) :
    ∃ pages, print_stack s.stack = .ok pages ∧ pages.Nodup ∧
      ∀ p, p ∈ pages ↔ (s.pt p).bits ≠ PROT_NONE := by
  have key : ∃ cells, LruInv s cells := by
    rcases Nat.eq_zero_or_pos nframes with h0 | hpos
    · subst h0
      rw [run_no_frames alg npages faults s hrun]
      exact ⟨[], init_lruInv 0 npages⟩
    · exact run_lruInv alg h1 h2 faults _ s [] (init_consistent nframes npages hpos)
        (init_lruInv nframes npages) hpages hrun
  obtain ⟨cells, hi⟩ := key
  exact ⟨cells.map Prod.snd, hi.rep.print_stack_eq, hi.pages_nodup, hi.mem_iff⟩

/-- Witness of C12: two frames, faults on the pages 0, 1, 0, 2; the stack then
reads 2, 1 and these are the mapped pages. -/
theorem lru_list_matches_residency_witness :
    ∃ s, run "lru" (init 2 4) [(0, 0), (1, 0), (0, 0), (2, 0)] = .ok s ∧
      print_stack s.stack = .ok [2, 1] ∧
      ∃ pages, print_stack s.stack = .ok pages ∧ pages.Nodup ∧
        ∀ p, p ∈ pages ↔ (s.pt p).bits ≠ PROT_NONE := by
  obtain ⟨s, hs, hp⟩ : ∃ s, run "lru" (init 2 4) [(0, 0), (1, 0), (0, 0), (2, 0)] = .ok s ∧
      print_stack s.stack = .ok [2, 1] := ⟨_, rfl, by decide⟩
  exact ⟨s, hs, hp, lru_list_matches_residency "lru" (by decide) (by decide) 2 4 _ s
    (by decide) hs⟩

/-- C19: in every state that a run of `lru`, on pages below `npages`, reaches
from the initial state with two frames or more, a fault on an unmapped page
that finds no free frame gets `-1` from `find_in_stack`, so the branch that
calls `move_to_top` is not taken; the handler returns, the frame used for the
disk read and for both tables is a frame index below `nframes`, and `push` is
called once: the heap has one more node and the stack reads the new page on
top of the old pages without the last. -/
theorem lru_index_in_range (alg : String) (h1 : alg ≠ "rand") (h2 : alg ≠ "fifo")
    (nframes npages : Nat) (faults : List (Nat × Nat)) (s : VM) (page r : Nat)
    (hF : 2 ≤ nframes) (hpages : ∀ x ∈ faults, x.1 < npages)
    (hrun : run alg (init nframes npages) faults = .ok s)
    (hun : (s.pt page).bits = PROT_NONE) (hfull : find_free_frame s = -1) :
    find_in_stack s.stack page = .ok (-1) ∧
      ∃ s1 f old, page_fault_handler alg s page r = .ok s1 ∧ f < nframes ∧
        s1.pt page = ⟨f, PROT_READ⟩ ∧ s1.frameTable[f]? = some ⟨page, PROT_READ⟩ ∧
        (∃ l, s1.disk = l ++ [DiskOp.read page f]) ∧
        s1.stack.heap.length = s.stack.heap.length + 1 ∧
        print_stack s.stack = .ok old ∧
        print_stack s1.stack = .ok (page :: old.dropLast) := by
  have hc0 := init_consistent nframes npages (by omega)
  obtain ⟨hc, -⟩ := run_consistent alg faults _ s hc0 hpages hrun
  obtain ⟨cells, hi⟩ := run_lruInv alg h1 h2 faults _ s [] hc0
    (init_lruInv nframes npages) hpages hrun
  have hlen : s.frameTable.length = nframes := by
    rw [run_length_eq alg faults _ s hrun, init_frameTable_length]
  have hneg : find_free_frame s < 0 := by rw [hfull]; omega
  obtain ⟨hfind, s1, f, hlru, hf, hpt, hft, hdisk, hheap, hprint⟩ :=
    lru_evict_returns (hc.bump (int32 (s.pageFaults + 1))) (hi.lru_bump (int32 (s.pageFaults + 1)))
      (by rw [hlen]; exact hF) hneg hun
  refine ⟨hfind, s1, f, cells.map Prod.snd, ?_, by rw [← hlen]; exact hf, hpt, hft, hdisk,
    hheap, hi.rep.print_stack_eq, hprint⟩
  rw [page_fault_handler_lru alg h1 h2]
  exact hlru

/-- Witness of C19: two frames, both filled by faults on the pages 0 and 1;
the fault on page 2 drops page 0 and takes frame 0. -/
theorem lru_index_in_range_witness :
    ∃ s, run "lru" (init 2 4) [(0, 0), (1, 0)] = .ok s ∧
      (s.pt 2).bits = PROT_NONE ∧ find_free_frame s = -1 ∧
      find_in_stack s.stack 2 = .ok (-1) ∧
      ∃ s1 f old, page_fault_handler "lru" s 2 0 = .ok s1 ∧ f < 2 ∧
        s1.pt 2 = ⟨f, PROT_READ⟩ ∧ s1.frameTable[f]? = some ⟨2, PROT_READ⟩ ∧
        (∃ l, s1.disk = l ++ [DiskOp.read 2 f]) ∧
        s1.stack.heap.length = s.stack.heap.length + 1 ∧
        print_stack s.stack = .ok old ∧
        print_stack s1.stack = .ok (2 :: old.dropLast) := by
  obtain ⟨s, hs, hun, hfull⟩ : ∃ s, run "lru" (init 2 4) [(0, 0), (1, 0)] = .ok s ∧
      (s.pt 2).bits = PROT_NONE ∧ find_free_frame s = -1 := ⟨_, rfl, by decide, by decide⟩
  obtain ⟨a, b⟩ := lru_index_in_range "lru" (by decide) (by decide) 2 4 _ s 2 0
    (by decide) (by decide) hs hun hfull
  exact ⟨s, hs, hun, hfull, a, b⟩

end VirtualMem
